import Mathlib

/-!
# Weighted rendezvous hashing (`rendezvous.go`)

A shallow embedding of the Go package `rendezvous` and the properties of its registry
operations and of `Resolve`.

Modelling decisions.

* `map[string]float64` is a `Finmap`: a finite map without any order on its entries.  Every
  `for ... := range m` loop of the source therefore receives the sequence of keys it visits as an
  explicit argument (`order`), constrained only by `IterOrder`: Go leaves the iteration order of
  a map unspecified and may change it from one loop to the next.
* `float64` is the type `float64` below: the IEEE-754 special values and the finite values (as
  rationals), with the comparison `>` of the language.  The arithmetic that produces these values
  (`+`, `*`, `/`, unary `-`, the conversion `float64(int)` and `math.Log`) belongs to the Go
  runtime and library, not to this package, and is a parameter (`Float64Arith`) of every function
  that computes a score.
* `panic` is the error side of `Except`.
* The mutex only matters under concurrency; the embedding is the sequential semantics.
-/

namespace Rendezvous

/-! ## float64 -/

/-- The values of a Go `float64`: not-a-number, the two infinities, negative zero and the finite
numbers (`fin 0` is positive zero). -/
inductive float64 where
  | NaN
  | Inf (negative : Bool)
  | negZero
  | fin (q : ℚ)
deriving DecidableEq

namespace float64

/-- Position of a value on the extended number line, `none` for NaN: the class (`-1` for `-Inf`,
`0` for finite, `1` for `+Inf`) and the number inside the class.  Both zeros sit at `(0, 0)`. -/
def toExt : float64 → Option (Int × ℚ)
  | NaN => none
  | Inf true => some (-1, 0)
  | Inf false => some (1, 0)
  | negZero => some (0, 0)
  | fin q => some (0, q)

/-- The Go comparison `a > b` on `float64`: false as soon as one side is NaN. -/
def gt (a b : float64) : Bool :=
  match a.toExt, b.toExt with
  | some (ca, qa), some (cb, qb) => decide (cb < ca ∨ (cb = ca ∧ qb < qa))
  | _, _ => false

/-- The Go comparison `a >= b` on `float64`: false as soon as one side is NaN. -/
def ge (a b : float64) : Bool :=
  match a.toExt, b.toExt with
  | some (ca, qa), some (cb, qb) => decide (cb < ca ∨ (cb = ca ∧ qb ≤ qa))
  | _, _ => false

/-- True of the values whose sign bit is set. -/
def signbit : float64 → Bool
  | NaN => false
  | Inf s => s
  | negZero => true
  | fin q => decide (q < 0)

/-- True of the two zeros. -/
def isZero : float64 → Bool
  | negZero => true
  | fin q => decide (q = 0)
  | _ => false

/-- The zero of the given sign. -/
def zero (negative : Bool) : float64 :=
  if negative then negZero else fin 0

end float64

/-- The float64 arithmetic of the Go runtime and of package `math` that `rendezvous.go` calls.
None of it is defined in the package, so the functions below take it as a parameter. -/
structure Float64Arith where
  /-- The conversion `float64(n)` of an `int`. -/
  ofInt : Int → float64
  /-- The sum `a + b`. -/
  add : float64 → float64 → float64
  /-- The product `a * b`. -/
  mul : float64 → float64 → float64
  /-- The quotient `a / b`. -/
  div : float64 → float64 → float64
  /-- The negation `-a`. -/
  neg : float64 → float64
  /-- The natural logarithm `math.Log(a)`. -/
  Log : float64 → float64

/-- The IEEE-754 sign rule for the product `float64(w) * x` of a converted `int` that is not
positive and a value above zero: the product is negative, a zero, or NaN (for `0 * +Inf`), never
above zero.  Every conforming arithmetic has this property. -/
def Float64Arith.MulSign (fl : Float64Arith) : Prop :=
  ∀ (w : Int) (x : float64), w ≤ 0 → x.gt (float64.fin 0) = true →
    (fl.mul (fl.ofInt w) x).gt (float64.fin 0) = false

/-! ## Hashing -/

/-- The bytes `[]byte(string(c))` of one character: its UTF-8 encoding. -/
def utf8 (c : Char) : List Nat :=
  let n := c.toNat
  if n < 0x80 then [n]
  else if n < 0x800 then [0xC0 + n / 0x40, 0x80 + n % 0x40]
  else if n < 0x10000 then [0xE0 + n / 0x1000, 0x80 + n / 0x40 % 0x40, 0x80 + n % 0x40]
  else [0xF0 + n / 0x40000, 0x80 + n / 0x1000 % 0x40, 0x80 + n / 0x40 % 0x40, 0x80 + n % 0x40]

/-- The byte slice `[]byte(s)`. -/
def bytes (s : String) : List Nat :=
  s.data.foldr (fun c acc => utf8 c ++ acc) []

/-- The hash `fnv.New32a()` of the standard library, as the value of `Sum32()` after `Reset()`
and `Write(bs)`: FNV-1a on 32 bits. -/
def fnv32a (bs : List Nat) : Nat :=
  bs.foldl (fun h b => (Nat.xor h b * 16777619) % 2 ^ 32) 2166136261

/-! ## The registry -/

/-- The struct `rendezvous`: `Hasher` is the value of `Sum32()` after `Reset()` and `Write(bs)`,
`nodes` maps a node to its weight.  The mutex has no sequential content. -/
structure rendezvous where
  Hasher : List Nat → Nat
  nodes : Finmap (fun _ : String => float64)

deriving instance DecidableEq for Except

/-- The two panics of the package. -/
inductive Panic where
  /-- The message `No server available`. -/
  | noServerAvailable
  /-- The message `<addr> is not a valid node.`. -/
  | notValidNode (addr : String)
deriving DecidableEq

/-- A sequence of keys that a `range` loop over `r.nodes` may visit: every key once. -/
def IterOrder (r : rendezvous) (order : List String) : Prop :=
  order.Nodup ∧ order.toFinset = r.nodes.keys

instance IterOrder.decidable (r : rendezvous) (order : List String) :
    Decidable (IterOrder r order) := by
  unfold IterOrder
  infer_instance

/-- Constructor `New`. -/
def New : rendezvous :=
  { Hasher := fnv32a, nodes := ∅ }

/-- Method `AddWeightedNode`. -/
def AddWeightedNode (fl : Float64Arith) (r : rendezvous) (addr : String) (weight : Int) :
    rendezvous :=
  { r with nodes := r.nodes.insert addr (fl.ofInt weight) }

/-- Method `AddNode`. -/
def AddNode (fl : Float64Arith) (r : rendezvous) (addr : String) : rendezvous :=
  AddWeightedNode fl r addr 1

/-- Method `AddWeightedNodes`; `pairs` is the sequence of entries that the loop over the argument
map visits. -/
def AddWeightedNodes (fl : Float64Arith) (r : rendezvous) (pairs : List (String × Int)) :
    rendezvous :=
  pairs.foldl (fun acc kv => { acc with nodes := acc.nodes.insert kv.1 (fl.ofInt kv.2) }) r

/-- The specification of `AddWeightedNodes`, in the words of the spec: `AddWeightedNode` applied
once for each pair, in the order of the list `pairs`. -/
def AddWeightedNodes_spec (fl : Float64Arith) (r : rendezvous) (pairs : List (String × Int)) :
    rendezvous :=
  pairs.foldl (fun acc kv => AddWeightedNode fl acc kv.1 kv.2) r

/-- Method `RemoveNode`; `order` is the sequence of keys that the loop visits. -/
def RemoveNode (r : rendezvous) (order : List String) (addr : String) : rendezvous :=
  match order with
  | [] => r
  | k :: rest =>
    if k = addr then { r with nodes := r.nodes.erase k }
    else RemoveNode r rest addr

/-- Method `Len`. -/
def Len (r : rendezvous) : Nat :=
  r.nodes.keys.card

/-- Method `hash`: the result is a `uint32`. -/
def hash (r : rendezvous) (key : String) : Nat :=
  r.Hasher (bytes key) % 2 ^ 32

/-- Constant `uint32Bound`. -/
def uint32Bound : float64 :=
  float64.fin (2 ^ 32)

/-- Method `normalize`; the conversion `float64(a)` of a `uint32` is exact. -/
def normalize (fl : Float64Arith) (a : Nat) : float64 :=
  fl.div (fl.add (float64.fin a) (float64.fin 1)) uint32Bound

/-- Method `computeWeightedScore`. -/
def computeWeightedScore (fl : Float64Arith) (r : rendezvous) (addr request : String) :
    Except Panic float64 :=
  match r.nodes.lookup addr with
  | none => .error (.notValidNode addr)
  | some weight =>
    let score := normalize fl (hash r (addr ++ ":" ++ request))
    let logScore := fl.div (float64.fin 1) (fl.neg (fl.Log score))
    .ok (fl.mul weight logScore)

/-- The loop of `Resolve` over the keys still to visit, from the current `node` and
`maxScore`. -/
def Resolve.loop (fl : Float64Arith) (r : rendezvous) (request : String) :
    List String → String → float64 → Except Panic String
  | [], node, _ => .ok node
  | addr :: rest, node, maxScore =>
    match computeWeightedScore fl r addr request with
    | .error e => .error e
    | .ok s =>
      if s.gt maxScore then Resolve.loop fl r request rest addr s
      else Resolve.loop fl r request rest node maxScore

/-- Method `Resolve`; `order` is the sequence of keys that the loop visits. -/
def Resolve (fl : Float64Arith) (r : rendezvous) (order : List String) (request : String) :
    Except Panic String :=
  if r.nodes.keys.card = 0 then .error .noServerAvailable
  else Resolve.loop fl r request order "" (float64.fin 0)

/-! ## A reference arithmetic

An executable instance of `Float64Arith`, for running the package on concrete registries: the
IEEE-754 rules for the special values and the signs of zero, and exact rational arithmetic on the
finite values (no rounding, no overflow).  `math.Log` is exact at `0`, `1` and the special
values; elsewhere it is the Padé approximant `2 (x - 1) / (x + 1)`, which has the sign and the
monotonicity of the logarithm. -/

namespace exact

/-- The sum of two values. -/
def add : float64 → float64 → float64
  | .NaN, _ => .NaN
  | _, .NaN => .NaN
  | .Inf s, .Inf t => if s = t then .Inf s else .NaN
  | .Inf s, _ => .Inf s
  | _, .Inf t => .Inf t
  | .negZero, .negZero => .negZero
  | .negZero, .fin q => .fin q
  | .fin q, .negZero => .fin q
  | .fin p, .fin q => .fin (p + q)

/-- The product of two values. -/
def mul (a b : float64) : float64 :=
  let s := xor a.signbit b.signbit
  match a, b with
  | .NaN, _ => .NaN
  | _, .NaN => .NaN
  | .Inf _, y => if y.isZero then .NaN else .Inf s
  | x, .Inf _ => if x.isZero then .NaN else .Inf s
  | .negZero, _ => float64.zero s
  | _, .negZero => float64.zero s
  | .fin p, .fin q => if p * q = 0 then float64.zero s else .fin (p * q)

/-- The quotient of two values. -/
def div (a b : float64) : float64 :=
  let s := xor a.signbit b.signbit
  match a, b with
  | .NaN, _ => .NaN
  | _, .NaN => .NaN
  | .Inf _, .Inf _ => .NaN
  | .Inf _, _ => .Inf s
  | _, .Inf _ => float64.zero s
  | x, .negZero => if x.isZero then .NaN else .Inf s
  | .negZero, .fin q => if q = 0 then .NaN else float64.zero s
  | .fin p, .fin q =>
    if q = 0 then (if p = 0 then .NaN else .Inf s)
    else if p = 0 then float64.zero s
    else .fin (p / q)

/-- The negation of a value. -/
def neg : float64 → float64
  | .NaN => .NaN
  | .Inf s => .Inf (!s)
  | .negZero => .fin 0
  | .fin q => if q = 0 then .negZero else .fin (-q)

/-- The logarithm of a value. -/
def Log : float64 → float64
  | .NaN => .NaN
  | .Inf s => if s then .NaN else .Inf false
  | .negZero => .Inf true
  | .fin q =>
    if q < 0 then .NaN
    else if q = 0 then .Inf true
    else .fin (2 * (q - 1) / (q + 1))

end exact

/-- The reference arithmetic. -/
def exactArith : Float64Arith :=
  { ofInt := fun n => float64.fin n
    add := exact.add
    mul := exact.mul
    div := exact.div
    neg := exact.neg
    Log := exact.Log }

/-! ## The arithmetic of the platform

What the package relies on from IEEE-754 double precision and from `math.Log`, as far as the
scores are concerned.  Every bound is between rationals. -/

/-- A bound on the relative error of one rounded operation: `2^-50`, above the unit roundoff
`2^-53` of double precision and above the error of `math.Log` (less than one unit in the last
place). -/
def eps : ℚ :=
  1 / 2 ^ 50

/-- The properties of double precision arithmetic that the score computation uses.

* `float64(n)` is exact up to `2^53` and correctly rounded on the 64-bit integers.
* `float64(a) + 1.0` for a `uint32` and the division of an integer up to `2^32` by `2^32` are
  exact: their results are representable.
* `math.Log(1)` is `+0`; for `u = n / 2^32` below one, `math.Log(u)` lies between `1 - 1/u` and
  `u - 1`.  The logarithm is at a relative distance of at least `2^-33` from both bounds on these
  arguments, so every implementation that is accurate to a few units in the last place does.
* Negation is exact and turns `+0` into `-0`.
* A quotient or a product whose exact value has a magnitude in the normal range is rounded with a
  relative error of at most `eps`; a product with `+0` of a finite value is a zero. -/
structure Float64Arith.Faithful (fl : Float64Arith) : Prop where
  ofInt_exact : ∀ n : Int, |n| ≤ 2 ^ 53 → fl.ofInt n = float64.fin n
  ofInt_near : ∀ n : Int, |n| ≤ 2 ^ 63 →
    ∃ q : ℚ, fl.ofInt n = float64.fin q ∧ |q - n| ≤ eps * |(n : ℚ)|
  add_one : ∀ a : Nat, a < 2 ^ 32 →
    fl.add (float64.fin a) (float64.fin 1) = float64.fin (a + 1)
  div_bound : ∀ n : Nat, 0 < n → n ≤ 2 ^ 32 →
    fl.div (float64.fin n) uint32Bound = float64.fin (n / 2 ^ 32)
  Log_one : fl.Log (float64.fin 1) = float64.fin 0
  Log_below_one : ∀ n : Nat, 0 < n → n < 2 ^ 32 →
    ∃ l : ℚ, fl.Log (float64.fin (n / 2 ^ 32)) = float64.fin l ∧
      1 - 2 ^ 32 / (n : ℚ) ≤ l ∧ l ≤ n / 2 ^ 32 - 1
  neg_zero : fl.neg (float64.fin 0) = float64.negZero
  neg_fin : ∀ q : ℚ, q ≠ 0 → fl.neg (float64.fin q) = float64.fin (-q)
  div_near : ∀ p q : ℚ, p ≠ 0 → q ≠ 0 → 1 / 2 ^ 1000 ≤ |p / q| → |p / q| ≤ 2 ^ 1000 →
    ∃ d : ℚ, fl.div (float64.fin p) (float64.fin q) = float64.fin d ∧
      |d - p / q| ≤ eps * |p / q|
  mul_near : ∀ p q : ℚ, p ≠ 0 → q ≠ 0 → 1 / 2 ^ 1000 ≤ |p * q| → |p * q| ≤ 2 ^ 1000 →
    ∃ m : ℚ, fl.mul (float64.fin p) (float64.fin q) = float64.fin m ∧
      |m - p * q| ≤ eps * |p * q|
  mul_zero : ∀ q : ℚ, (fl.mul (float64.fin 0) (float64.fin q)).isZero = true

/-! ## The composite key and concurrent runs -/

/-- The string `fmt.Sprintf("%v:%v", addr, request)` that `computeWeightedScore` hashes. -/
def composite (addr request : String) : String :=
  addr ++ ":" ++ request

/-- The loop of `Resolve` in a run where other goroutines write to the registry between its
steps.  Each visited key comes with the registry that `computeWeightedScore` reads for it: it
takes and releases the read lock once per key. -/
def Resolve.concurrentLoop (fl : Float64Arith) (request : String) :
    List (String × rendezvous) → String → float64 → Except Panic String
  | [], node, _ => .ok node
  | (addr, r) :: rest, node, maxScore =>
    match computeWeightedScore fl r addr request with
    | .error e => .error e
    | .ok s =>
      if s.gt maxScore then Resolve.concurrentLoop fl request rest addr s
      else Resolve.concurrentLoop fl request rest node maxScore

/-- Method `Resolve` in a run where other goroutines write to the registry between its steps:
`seen` is the registry that the test `len(r.nodes) == 0` reads, without the lock, and `visits`
is the sequence of keys that the loop visits, each with the registry read for it. -/
def Resolve.concurrent (fl : Float64Arith) (seen : rendezvous)
    (visits : List (String × rendezvous)) (request : String) : Except Panic String :=
  if seen.nodes.keys.card = 0 then .error .noServerAvailable
  else Resolve.concurrentLoop fl request visits "" (float64.fin 0)

/-! ## The order of float64 -/

theorem float64.gt_irrefl (a : float64) : a.gt a = false := by
  cases a with
  | NaN => rfl
  | Inf s => cases s <;> simp [float64.gt, float64.toExt]
  | negZero => simp [float64.gt, float64.toExt]
  | fin q => simp [float64.gt, float64.toExt]

theorem float64.gt_iff (a b : float64) :
    a.gt b = true ↔ ∃ x y, a.toExt = some x ∧ b.toExt = some y ∧
      (y.1 < x.1 ∨ (y.1 = x.1 ∧ y.2 < x.2)) := by
  unfold float64.gt
  cases ha : a.toExt with
  | none => simp
  | some x =>
    cases hb : b.toExt with
    | none => simp
    | some y => simp

theorem float64.ge_iff (a b : float64) :
    a.ge b = true ↔ ∃ x y, a.toExt = some x ∧ b.toExt = some y ∧
      (y.1 < x.1 ∨ (y.1 = x.1 ∧ y.2 ≤ x.2)) := by
  unfold float64.ge
  cases ha : a.toExt with
  | none => simp
  | some x =>
    cases hb : b.toExt with
    | none => simp
    | some y => simp

theorem float64.gt_trans {a b c : float64} (hab : a.gt b = true) (hbc : b.gt c = true) :
    a.gt c = true := by
  rw [float64.gt_iff] at *
  obtain ⟨x, y, hx, hy, h1⟩ := hab
  obtain ⟨y', z, hy', hz, h2⟩ := hbc
  rw [hy] at hy'
  cases hy'
  refine ⟨x, z, hx, hz, ?_⟩
  rcases h1 with h1 | ⟨h1, h1'⟩ <;> rcases h2 with h2 | ⟨h2, h2'⟩
  · left; omega
  · left; omega
  · left; omega
  · right; exact ⟨by omega, lt_trans h2' h1'⟩

/-- A value that does not exceed `x` is neither equal to nor above a value that exceeds `x`. -/
theorem float64.ge_false_of_gt {s m x : float64} (hm : m.gt x = true) (hs : s.gt x = false) :
    s.ge m = false := by
  rw [← Bool.not_eq_true] at *
  rw [float64.gt_iff] at *
  rw [float64.ge_iff]
  obtain ⟨a, b, ha, hb, h1⟩ := hm
  rintro ⟨c, d, hc, hd, h2⟩
  rw [ha] at hd
  cases hd
  apply hs
  refine ⟨c, b, hc, hb, ?_⟩
  rcases h1 with h1 | ⟨h1, h1'⟩ <;> rcases h2 with h2 | ⟨h2, h2'⟩
  · left; omega
  · left; omega
  · left; omega
  · right; exact ⟨by omega, lt_of_lt_of_le h1' h2'⟩

theorem float64.gt_false_of_ge_false {a b : float64} (h : a.ge b = false) : a.gt b = false := by
  rw [← Bool.not_eq_true] at *
  rw [float64.gt_iff]
  rw [float64.ge_iff] at h
  rintro ⟨x, y, hx, hy, h1⟩
  apply h
  refine ⟨x, y, hx, hy, ?_⟩
  rcases h1 with h1 | ⟨h1, h1'⟩
  · left; exact h1
  · right; exact ⟨h1, le_of_lt h1'⟩

theorem float64.ge_of_not_gt {a b : float64} (h : b.gt a = false) (ha : a ≠ .NaN) (hb : b ≠ .NaN) :
    a.ge b = true := by
  rw [← Bool.not_eq_true] at h
  rw [float64.gt_iff] at h
  rw [float64.ge_iff]
  cases hx : a.toExt with
  | none => cases a with
    | NaN => exact absurd rfl ha
    | Inf s => cases s <;> simp [float64.toExt] at hx
    | negZero => simp [float64.toExt] at hx
    | fin q => simp [float64.toExt] at hx
  | some x =>
    cases hy : b.toExt with
    | none => cases b with
      | NaN => exact absurd rfl hb
      | Inf s => cases s <;> simp [float64.toExt] at hy
      | negZero => simp [float64.toExt] at hy
      | fin q => simp [float64.toExt] at hy
    | some y =>
      refine ⟨x, y, rfl, rfl, ?_⟩
      by_contra hc
      apply h
      refine ⟨y, x, hy, hx, ?_⟩
      rcases lt_trichotomy x.1 y.1 with h1 | h1 | h1
      · left; exact h1
      · right
        refine ⟨h1, ?_⟩
        by_contra h2
        exact hc (Or.inr ⟨h1.symm, not_lt.mp h2⟩)
      · exact absurd (Or.inl h1) hc

/-- Two values above zero neither of which exceeds the other are the same value. -/
theorem float64.eq_of_not_gt {a b : float64} (ha : a.gt (.fin 0) = true)
    (hb : b.gt (.fin 0) = true) (hab : a.gt b = false) (hba : b.gt a = false) : a = b := by
  cases a with
  | NaN => simp [float64.gt, float64.toExt] at ha
  | Inf s =>
    cases s
    · cases b with
      | NaN => simp [float64.gt, float64.toExt] at hb
      | Inf t => cases t <;> simp [float64.gt, float64.toExt] at hb ⊢
      | negZero => simp [float64.gt, float64.toExt] at hb
      | fin q => simp [float64.gt, float64.toExt] at hab
    · simp [float64.gt, float64.toExt] at ha
  | negZero => simp [float64.gt, float64.toExt] at ha
  | fin p =>
    cases b with
    | NaN => simp [float64.gt, float64.toExt] at hb
    | Inf t => cases t <;> simp [float64.gt, float64.toExt] at hb hba
    | negZero => simp [float64.gt, float64.toExt] at hb
    | fin q =>
      simp [float64.gt, float64.toExt] at hab hba
      rw [le_antisymm hab hba]

/-! ## The loop of Resolve -/

theorem computeWeightedScore_ok (fl : Float64Arith) (r : rendezvous) (a k : String)
    (ha : a ∈ r.nodes) : ∃ s, computeWeightedScore fl r a k = .ok s := by
  obtain ⟨w, hw⟩ := Finmap.mem_iff.mp ha
  refine ⟨fl.mul w (fl.div (float64.fin 1)
    (fl.neg (fl.Log (Rendezvous.normalize fl (hash r (a ++ ":" ++ k)))))), ?_⟩
  simp [computeWeightedScore, hw]

theorem computeWeightedScore_mem (fl : Float64Arith) (r : rendezvous) (a k : String)
    (s : float64) (h : computeWeightedScore fl r a k = .ok s) : a ∈ r.nodes := by
  unfold computeWeightedScore at h
  cases hl : r.nodes.lookup a with
  | none => simp [hl] at h
  | some w => exact Finmap.mem_of_lookup_eq_some hl

/-- What the loop of `Resolve` returns on keys of the registry: either nothing beats the initial
maximum and the initial node comes back, or the winner is the first key of the sequence whose
score no visited key exceeds. -/
theorem Resolve.loop_spec (fl : Float64Arith) (r : rendezvous) (k : String) :
    ∀ (l : List String) (node0 : String) (max0 : float64), (∀ a ∈ l, a ∈ r.nodes) →
      (Resolve.loop fl r k l node0 max0 = .ok node0 ∧
        ∀ a ∈ l, ∀ s, computeWeightedScore fl r a k = .ok s → s.gt max0 = false) ∨
      (∃ pre m post sm, l = pre ++ m :: post ∧ Resolve.loop fl r k l node0 max0 = .ok m ∧
        computeWeightedScore fl r m k = .ok sm ∧ sm.gt max0 = true ∧
        (∀ a ∈ pre, ∀ s, computeWeightedScore fl r a k = .ok s → s.ge sm = false) ∧
        (∀ a ∈ post, ∀ s, computeWeightedScore fl r a k = .ok s → s.gt sm = false)) := by
  intro l
  induction l with
  | nil =>
    intro node0 max0 _
    left
    exact ⟨rfl, by simp⟩
  | cons a rest ih =>
    intro node0 max0 hmem
    obtain ⟨s, hs⟩ := computeWeightedScore_ok fl r a k (hmem a (List.mem_cons_self _ _))
    have hrest : ∀ b ∈ rest, b ∈ r.nodes := fun b hb => hmem b (List.mem_cons_of_mem _ hb)
    by_cases hgt : s.gt max0 = true
    · have hstep : Resolve.loop fl r k (a :: rest) node0 max0 = Resolve.loop fl r k rest a s := by
        simp [Resolve.loop, hs, hgt]
      right
      rcases ih a s hrest with ⟨hres, hall⟩ | ⟨pre, m, post, sm, hl, hres, hsm, hbeat, hpre, hpost⟩
      · exact ⟨[], a, rest, s, rfl, by rw [hstep, hres], hs, hgt, by simp, hall⟩
      · refine ⟨a :: pre, m, post, sm, by rw [hl]; rfl, by rw [hstep, hres], hsm,
          float64.gt_trans hbeat hgt, ?_, hpost⟩
        intro b hb t ht
        rcases List.mem_cons.mp hb with rfl | hb
        · rw [hs] at ht
          cases ht
          exact float64.ge_false_of_gt hbeat (float64.gt_irrefl _)
        · exact hpre b hb t ht
    · have hgt' : s.gt max0 = false := by simpa using hgt
      have hstep : Resolve.loop fl r k (a :: rest) node0 max0 =
          Resolve.loop fl r k rest node0 max0 := by
        simp [Resolve.loop, hs, hgt']
      rcases ih node0 max0 hrest with
        ⟨hres, hall⟩ | ⟨pre, m, post, sm, hl, hres, hsm, hbeat, hpre, hpost⟩
      · left
        refine ⟨by rw [hstep, hres], ?_⟩
        intro b hb t ht
        rcases List.mem_cons.mp hb with rfl | hb
        · rw [hs] at ht
          cases ht
          exact hgt'
        · exact hall b hb t ht
      · right
        refine ⟨a :: pre, m, post, sm, by rw [hl]; rfl, by rw [hstep, hres], hsm, hbeat, ?_, hpost⟩
        intro b hb t ht
        rcases List.mem_cons.mp hb with rfl | hb
        · rw [hs] at ht
          cases ht
          exact float64.ge_false_of_gt hbeat hgt'
        · exact hpre b hb t ht

/-! ## Resolve -/

theorem IterOrder.mem_iff {r : rendezvous} {order : List String} (h : IterOrder r order)
    (a : String) : a ∈ order ↔ a ∈ r.nodes := by
  rw [← Finmap.mem_keys, ← h.2, List.mem_toFinset]

theorem Len_eq_zero_iff (r : rendezvous) : Len r = 0 ↔ ∀ a, a ∉ r.nodes := by
  unfold Len
  rw [Finset.card_eq_zero, Finset.eq_empty_iff_forall_not_mem]
  exact forall_congr' fun a => not_congr Finmap.mem_keys

theorem Resolve_of_Len_ne_zero (fl : Float64Arith) (r : rendezvous) (order : List String)
    (k : String) (h : Len r ≠ 0) :
    Resolve fl r order k = Resolve.loop fl r k order "" (float64.fin 0) := by
  unfold Len at h
  simp [Resolve, h]

/-- What `Resolve` returns on a non-empty registry: the empty string when no score exceeds zero,
otherwise the first key of the iteration order whose score no key exceeds. -/
theorem Resolve_spec (fl : Float64Arith) (r : rendezvous) (order : List String) (k : String)
    (horder : IterOrder r order) (hlen : Len r ≠ 0) :
    (Resolve fl r order k = .ok "" ∧
      ∀ a s, computeWeightedScore fl r a k = .ok s → s.gt (float64.fin 0) = false) ∨
    (∃ pre m post sm, order = pre ++ m :: post ∧ Resolve fl r order k = .ok m ∧
      computeWeightedScore fl r m k = .ok sm ∧ sm.gt (float64.fin 0) = true ∧
      (∀ a ∈ pre, ∀ s, computeWeightedScore fl r a k = .ok s → s.ge sm = false) ∧
      (∀ a s, computeWeightedScore fl r a k = .ok s → s.gt sm = false)) := by
  rw [Resolve_of_Len_ne_zero fl r order k hlen]
  have hmem : ∀ a ∈ order, a ∈ r.nodes := fun a ha => (horder.mem_iff a).mp ha
  rcases Resolve.loop_spec fl r k order "" (float64.fin 0) hmem with
    ⟨hres, hall⟩ | ⟨pre, m, post, sm, hl, hres, hsm, hbeat, hpre, hpost⟩
  · left
    refine ⟨hres, fun a s hs => hall a ?_ s hs⟩
    exact (horder.mem_iff a).mpr (computeWeightedScore_mem fl r a k s hs)
  · right
    refine ⟨pre, m, post, sm, hl, hres, hsm, hbeat, hpre, ?_⟩
    intro a s hs
    have ha : a ∈ order := (horder.mem_iff a).mpr (computeWeightedScore_mem fl r a k s hs)
    rw [hl] at ha
    rcases List.mem_append.mp ha with ha | ha
    · exact float64.gt_false_of_ge_false (hpre a ha s hs)
    · rcases List.mem_cons.mp ha with rfl | ha
      · rw [hsm] at hs
        cases hs
        exact float64.gt_irrefl _
      · exact hpost a ha s hs

theorem float64.ne_NaN_of_gt {a b : float64} (h : a.gt b = true) : a ≠ .NaN := by
  rintro rfl
  simp [float64.gt, float64.toExt] at h

/-- The arg-max property of `Resolve` where the code has it: on a registry in which some node has
a score above zero for the key, whatever the iteration order, `Resolve` returns a registered
identifier whose score is above zero, is exceeded by the score of no node, and is greater than or
equal to the score of every node whose score is a number. -/
theorem Resolve_returns_argmax (fl : Float64Arith) (r : rendezvous) (order : List String)
    (k : String) (horder : IterOrder r order)
    (hpos : ∃ a s, computeWeightedScore fl r a k = .ok s ∧ s.gt (float64.fin 0) = true) :
    ∃ m sm, Resolve fl r order k = .ok m ∧ m ∈ r.nodes ∧
      computeWeightedScore fl r m k = .ok sm ∧ sm.gt (float64.fin 0) = true ∧
      (∀ a s, computeWeightedScore fl r a k = .ok s → s.gt sm = false) ∧
      (∀ a s, computeWeightedScore fl r a k = .ok s → s ≠ float64.NaN → sm.ge s = true) := by
  obtain ⟨a0, s0, hs0, hgt0⟩ := hpos
  have hlen : Len r ≠ 0 := fun h =>
    (Len_eq_zero_iff r).mp h a0 (computeWeightedScore_mem fl r a0 k s0 hs0)
  rcases Resolve_spec fl r order k horder hlen with
    ⟨_, hall⟩ | ⟨pre, m, post, sm, _, hres, hsm, hbeat, _, hmax⟩
  · rw [hall a0 s0 hs0] at hgt0
    cases hgt0
  · refine ⟨m, sm, hres, computeWeightedScore_mem fl r m k sm hsm, hsm, hbeat, hmax, ?_⟩
    intro a s hs hnan
    exact float64.ge_of_not_gt (hmax a s hs) (float64.ne_NaN_of_gt hbeat) hnan

/-- The arg-max property on the registry `{s1.test.com: 10, s2.test.com: 2, s3.test.com: 3}` of
the test suite and the key `request`: the winner is `s2.test.com`. -/
theorem Resolve_returns_argmax_witness :
    Resolve exactArith (AddWeightedNodes exactArith New
        [("s1.test.com", 10), ("s2.test.com", 2), ("s3.test.com", 3)])
      ["s1.test.com", "s2.test.com", "s3.test.com"] "request" = .ok "s2.test.com" ∧
    ∃ m sm, Resolve exactArith (AddWeightedNodes exactArith New
        [("s1.test.com", 10), ("s2.test.com", 2), ("s3.test.com", 3)])
        ["s1.test.com", "s2.test.com", "s3.test.com"] "request" = .ok m ∧
      m ∈ (AddWeightedNodes exactArith New
        [("s1.test.com", 10), ("s2.test.com", 2), ("s3.test.com", 3)]).nodes ∧
      computeWeightedScore exactArith (AddWeightedNodes exactArith New
        [("s1.test.com", 10), ("s2.test.com", 2), ("s3.test.com", 3)]) m "request" = .ok sm ∧
      sm.gt (float64.fin 0) = true ∧
      (∀ a s, computeWeightedScore exactArith (AddWeightedNodes exactArith New
        [("s1.test.com", 10), ("s2.test.com", 2), ("s3.test.com", 3)]) a "request" = .ok s →
        s.gt sm = false) ∧
      (∀ a s, computeWeightedScore exactArith (AddWeightedNodes exactArith New
        [("s1.test.com", 10), ("s2.test.com", 2), ("s3.test.com", 3)]) a "request" = .ok s →
        s ≠ float64.NaN → sm.ge s = true) :=
  ⟨by decide!,
    Resolve_returns_argmax exactArith (AddWeightedNodes exactArith New
        [("s1.test.com", 10), ("s2.test.com", 2), ("s3.test.com", 3)])
      ["s1.test.com", "s2.test.com", "s3.test.com"] "request" (by decide)
      ⟨"s2.test.com", exact.mul (float64.fin 2) (exact.div (float64.fin 1) (exact.neg (exact.Log
        (Rendezvous.normalize exactArith (hash New "s2.test.com:request"))))),
        by decide!, by decide!⟩⟩

/-- C1 (the code at the failing input): after `r := New()` and `r.AddWeightedNode("a", 0)` the
registry has one node, `a`, whose score for the key `k` is zero: it is the node that has the
highest score.  `r.Resolve("k")` returns the empty string, which is not a node of the registry:
`maxScore` starts at `0.0` and the score of `a` does not exceed it. -/
theorem Resolve_zero_weight_returns_unregistered :
    Len (AddWeightedNode exactArith New "a" 0) = 1 ∧
    IterOrder (AddWeightedNode exactArith New "a" 0) ["a"] ∧
    "a" ∈ (AddWeightedNode exactArith New "a" 0).nodes ∧
    computeWeightedScore exactArith (AddWeightedNode exactArith New "a" 0) "a" "k" =
      .ok (float64.fin 0) ∧
    Resolve exactArith (AddWeightedNode exactArith New "a" 0) ["a"] "k" = .ok "" ∧
    "" ∉ (AddWeightedNode exactArith New "a" 0).nodes := by
  decide!

/-- C2: `Resolve` panics with `No server available` exactly when the registry is empty, and on a
non-empty registry it returns an identifier. -/
theorem Resolve_fails_iff_empty (fl : Float64Arith) (r : rendezvous) (order : List String)
    (k : String) (horder : IterOrder r order) :
    (Resolve fl r order k = .error .noServerAvailable ↔ Len r = 0) ∧
    (Len r ≠ 0 → ∃ m, Resolve fl r order k = .ok m) := by
  have hok : Len r ≠ 0 → ∃ m, Resolve fl r order k = .ok m := by
    intro hlen
    rcases Resolve_spec fl r order k horder hlen with ⟨hres, _⟩ | ⟨_, m, _, _, _, hres, _⟩
    · exact ⟨"", hres⟩
    · exact ⟨m, hres⟩
  refine ⟨⟨?_, ?_⟩, hok⟩
  · intro hres
    by_contra hlen
    obtain ⟨m, hm⟩ := hok hlen
    rw [hm] at hres
    cases hres
  · intro hlen
    unfold Len at hlen
    simp [Resolve, hlen]

/-- C2 (witness): the empty registry and the registry `{a: 1}`. -/
theorem Resolve_fails_iff_empty_witness :
    ((Resolve exactArith New [] "k" = .error .noServerAvailable ↔ Len New = 0) ∧
      (Len New ≠ 0 → ∃ m, Resolve exactArith New [] "k" = .ok m)) ∧
    ((Resolve exactArith (AddWeightedNode exactArith New "a" 1) ["a"] "k" =
        .error .noServerAvailable ↔ Len (AddWeightedNode exactArith New "a" 1) = 0) ∧
      (Len (AddWeightedNode exactArith New "a" 1) ≠ 0 →
        ∃ m, Resolve exactArith (AddWeightedNode exactArith New "a" 1) ["a"] "k" = .ok m)) :=
  ⟨Resolve_fails_iff_empty exactArith New [] "k" (by decide),
    Resolve_fails_iff_empty exactArith (AddWeightedNode exactArith New "a" 1) ["a"] "k"
      (by decide)⟩

/-! ## RemoveNode and the winner of Resolve -/

/-- The loop of `RemoveNode` deletes the key when it meets it and changes nothing otherwise. -/
theorem RemoveNode_eq (r : rendezvous) (addr : String) :
    ∀ order : List String, RemoveNode r order addr =
      if addr ∈ order then { r with nodes := r.nodes.erase addr } else r := by
  intro order
  induction order with
  | nil => simp [RemoveNode]
  | cons k rest ih =>
    by_cases hk : k = addr
    · subst hk
      simp [RemoveNode]
    · have hk' : ¬ addr = k := fun h => hk h.symm
      simp [RemoveNode, hk, hk', ih]

theorem Finmap_erase_of_not_mem (m : Finmap (fun _ : String => float64)) (a : String)
    (h : a ∉ m) : m.erase a = m := by
  apply Finmap.ext_lookup
  intro x
  by_cases hx : x = a
  · subst hx
    rw [Finmap.lookup_erase, eq_comm, Finmap.lookup_eq_none]
    exact h
  · exact Finmap.lookup_erase_ne hx

theorem RemoveNode_of_IterOrder (r : rendezvous) (order : List String) (addr : String)
    (horder : IterOrder r order) :
    RemoveNode r order addr = { r with nodes := r.nodes.erase addr } := by
  rw [RemoveNode_eq]
  by_cases h : addr ∈ order
  · simp [h]
  · have hn : addr ∉ r.nodes := fun hm => h ((horder.mem_iff addr).mpr hm)
    simp [h, Finmap_erase_of_not_mem r.nodes addr hn]

theorem computeWeightedScore_erase (fl : Float64Arith) (r : rendezvous) (n a k : String)
    (h : a ≠ n) :
    computeWeightedScore fl { r with nodes := r.nodes.erase n } a k =
      computeWeightedScore fl r a k := by
  simp [computeWeightedScore, Finmap.lookup_erase_ne h, hash]

/-- The winner of `Resolve` is the same on a registry and on a part of it that keeps the winner,
whatever the two iteration orders, when no other node of the part has the winner's score. -/
theorem Resolve_eq_of_no_tie (fl : Float64Arith) (r r' : rendezvous) (o o' : List String)
    (k m : String) (horder : IterOrder r o) (horder' : IterOrder r' o') (hlen' : Len r' ≠ 0)
    (hsub : ∀ a, a ∈ r'.nodes → a ∈ r.nodes ∧
      computeWeightedScore fl r' a k = computeWeightedScore fl r a k)
    (hres : Resolve fl r o k = .ok m) (hm : m ∈ r.nodes → m ∈ r'.nodes)
    (htie : ∀ a, a ∈ r'.nodes → a ≠ m → ∀ s, computeWeightedScore fl r a k = .ok s →
      s.gt (float64.fin 0) = true → computeWeightedScore fl r m k ≠ .ok s) :
    Resolve fl r' o' k = .ok m := by
  have hlen : Len r ≠ 0 := by
    intro h
    obtain ⟨a, ha⟩ : ∃ a, a ∈ r'.nodes := by
      by_contra hne
      exact hlen' ((Len_eq_zero_iff r').mpr (fun a ha => hne ⟨a, ha⟩))
    exact (Len_eq_zero_iff r).mp h a (hsub a ha).1
  rcases Resolve_spec fl r o k horder hlen with
    ⟨hres1, hall⟩ | ⟨_, m1, _, sm, _, hres1, hsm, hbeat, _, hmax⟩
  · rw [hres1] at hres
    cases hres
    rcases Resolve_spec fl r' o' k horder' hlen' with
      ⟨hres2, _⟩ | ⟨_, m2, _, sm2, _, _, hsm2, hbeat2, _, _⟩
    · exact hres2
    · have hm2 := computeWeightedScore_mem fl r' m2 k sm2 hsm2
      rw [(hsub m2 hm2).2] at hsm2
      rw [hall m2 sm2 hsm2] at hbeat2
      cases hbeat2
  · rw [hres1] at hres
    cases hres
    have hmr' : m ∈ r'.nodes := hm (computeWeightedScore_mem fl r m k sm hsm)
    have hsm' : computeWeightedScore fl r' m k = .ok sm := by rw [(hsub m hmr').2, hsm]
    rcases Resolve_spec fl r' o' k horder' hlen' with
      ⟨_, hall2⟩ | ⟨_, m2, _, sm2, _, hres2, hsm2, hbeat2, _, hmax2⟩
    · rw [hall2 m sm hsm'] at hbeat
      cases hbeat
    · by_cases heq : m2 = m
      · rw [hres2, heq]
      · exfalso
        have hm2 := computeWeightedScore_mem fl r' m2 k sm2 hsm2
        have hsm2r : computeWeightedScore fl r m2 k = .ok sm2 := by rw [← (hsub m2 hm2).2, hsm2]
        have h1 : sm2.gt sm = false := hmax m2 sm2 hsm2r
        have h2 : sm.gt sm2 = false := hmax2 m sm hsm'
        have : sm2 = sm := float64.eq_of_not_gt hbeat2 hbeat h1 h2
        subst this
        exact htie m2 hm2 heq sm2 hsm2r hbeat2 hsm

/-- C3 (amended): if `Resolve` returns `m` for a key, `m` is not the removed node `n`, a node
remains after `RemoveNode(n)`, and no remaining node other than `m` has a score above zero equal
to the score of `m`, then `Resolve` returns `m` for that key after the removal, whatever the
iteration orders of the three loops. -/
theorem RemoveNode_keeps_other_winners (fl : Float64Arith) (r : rendezvous)
    (o1 oRm o2 : List String) (n m k : String)
    (horder1 : IterOrder r o1) (horderRm : IterOrder r oRm)
    (horder2 : IterOrder (RemoveNode r oRm n) o2)
    (hres : Resolve fl r o1 k = .ok m) (hmn : m ≠ n)
    (hlen : Len (RemoveNode r oRm n) ≠ 0)
    (htie : ∀ a, a ∈ r.nodes → a ≠ n → a ≠ m → ∀ s, computeWeightedScore fl r a k = .ok s →
      s.gt (float64.fin 0) = true → computeWeightedScore fl r m k ≠ .ok s) :
    Resolve fl (RemoveNode r oRm n) o2 k = .ok m := by
  rw [RemoveNode_of_IterOrder r oRm n horderRm] at horder2 hlen ⊢
  refine Resolve_eq_of_no_tie fl r _ o1 o2 k m horder1 horder2 hlen ?_ hres ?_ ?_
  · intro a ha
    have ha' : a ≠ n ∧ a ∈ r.nodes := Finmap.mem_erase.mp ha
    exact ⟨ha'.2, computeWeightedScore_erase fl r n a k ha'.1⟩
  · intro hm
    exact Finmap.mem_erase.mpr ⟨hmn, hm⟩
  · intro a ha hne s hs hpos
    have ha' : a ≠ n ∧ a ∈ r.nodes := Finmap.mem_erase.mp ha
    exact htie a ha'.2 ha'.1 hne s hs hpos

/-- C4 (amended): if `Resolve` returns `m` for the key in one iteration order and no node other
than `m` has a score above zero equal to the score of `m`, then `Resolve` returns `m` in every
iteration order; on the empty registry it panics in every order.  Ties between nodes that do not
win are allowed. -/
theorem Resolve_order_independent (fl : Float64Arith) (r : rendezvous) (o1 o2 : List String)
    (k : String) (horder1 : IterOrder r o1) (horder2 : IterOrder r o2)
    (htie : ∀ m, Resolve fl r o1 k = .ok m → ∀ a, a ∈ r.nodes → a ≠ m → ∀ s,
      computeWeightedScore fl r a k = .ok s → s.gt (float64.fin 0) = true →
      computeWeightedScore fl r m k ≠ .ok s) :
    Resolve fl r o1 k = Resolve fl r o2 k := by
  by_cases hlen : Len r = 0
  · unfold Len at hlen
    simp [Resolve, hlen]
  · obtain ⟨m, hm⟩ : ∃ m, Resolve fl r o1 k = .ok m := by
      rcases Resolve_spec fl r o1 k horder1 hlen with ⟨hres, _⟩ | ⟨_, m, _, _, _, hres, _⟩
      · exact ⟨"", hres⟩
      · exact ⟨m, hres⟩
    rw [hm]
    symm
    exact Resolve_eq_of_no_tie fl r r o1 o2 k m horder1 horder2 hlen
      (fun a ha => ⟨ha, rfl⟩) hm id (htie m hm)

/-- C5 (amended): on a registry in which some node has a score above zero for the key, `Resolve`
returns a node `m` whose score no node exceeds, and every node that the loop visits before `m`
has a score that is neither equal to nor above the score of `m`: among the nodes that share the
maximum, the first one in the iteration order wins. -/
theorem Resolve_tie_first_visited (fl : Float64Arith) (r : rendezvous) (order : List String)
    (k : String) (horder : IterOrder r order)
    (hpos : ∃ a s, computeWeightedScore fl r a k = .ok s ∧ s.gt (float64.fin 0) = true) :
    ∃ pre m post sm, order = pre ++ m :: post ∧ Resolve fl r order k = .ok m ∧
      computeWeightedScore fl r m k = .ok sm ∧
      (∀ a s, computeWeightedScore fl r a k = .ok s → s.gt sm = false) ∧
      (∀ a ∈ pre, ∀ s, computeWeightedScore fl r a k = .ok s → s.ge sm = false ∧ s ≠ sm) := by
  obtain ⟨a0, s0, hs0, hgt0⟩ := hpos
  have hlen : Len r ≠ 0 := fun h =>
    (Len_eq_zero_iff r).mp h a0 (computeWeightedScore_mem fl r a0 k s0 hs0)
  rcases Resolve_spec fl r order k horder hlen with
    ⟨_, hall⟩ | ⟨pre, m, post, sm, hl, hres, hsm, hbeat, hpre, hmax⟩
  · rw [hall a0 s0 hs0] at hgt0
    cases hgt0
  · refine ⟨pre, m, post, sm, hl, hres, hsm, hmax, ?_⟩
    intro a ha s hs
    refine ⟨hpre a ha s hs, ?_⟩
    rintro rfl
    have h1 := hpre a ha s hs
    have h2 : s.ge s = true :=
      float64.ge_of_not_gt (float64.gt_irrefl s) (float64.ne_NaN_of_gt hbeat)
        (float64.ne_NaN_of_gt hbeat)
    rw [h1] at h2
    cases h2

/-- C3 (witness): the registry `{s1.test.com: 10, s2.test.com: 2, s3.test.com: 3}` of the test
suite, the key `request` and the removal of `s1.test.com`. -/
theorem RemoveNode_keeps_other_winners_witness :
    Resolve exactArith (AddWeightedNodes exactArith New
        [("s1.test.com", 10), ("s2.test.com", 2), ("s3.test.com", 3)])
      ["s1.test.com", "s2.test.com", "s3.test.com"] "request" = .ok "s2.test.com" ∧
    Resolve exactArith (RemoveNode (AddWeightedNodes exactArith New
        [("s1.test.com", 10), ("s2.test.com", 2), ("s3.test.com", 3)])
        ["s3.test.com", "s2.test.com", "s1.test.com"] "s1.test.com")
      ["s3.test.com", "s2.test.com"] "request" = .ok "s2.test.com" :=
  ⟨by decide!,
    RemoveNode_keeps_other_winners exactArith (AddWeightedNodes exactArith New
        [("s1.test.com", 10), ("s2.test.com", 2), ("s3.test.com", 3)])
      ["s1.test.com", "s2.test.com", "s3.test.com"] ["s3.test.com", "s2.test.com", "s1.test.com"]
      ["s3.test.com", "s2.test.com"] "s1.test.com" "s2.test.com" "request"
      (by decide) (by decide) (by decide!) (by decide!) (by decide) (by decide!)
      (by
        intro a ha hn hm s hs _ h
        rw [← Finmap.mem_keys] at ha
        have hkeys : (AddWeightedNodes exactArith New
            [("s1.test.com", 10), ("s2.test.com", 2), ("s3.test.com", 3)]).nodes.keys =
            {"s1.test.com", "s2.test.com", "s3.test.com"} := by decide!
        rw [hkeys] at ha
        simp only [Finset.mem_insert, Finset.mem_singleton] at ha
        rcases ha with rfl | rfl | rfl
        · exact hn rfl
        · exact hm rfl
        · exact absurd (hs.trans h.symm) (by decide!))⟩

/-- C3 (counterexample): on `{a: 0}` the key `k` resolves to the empty string, which is not
the node `a`, and after `RemoveNode(a)` it resolves to nothing, `Resolve` panics; on
`{altarage: 1, zinke: 1, x: 0}`, where the first two nodes have the same score, the key resolves
to `altarage` in one iteration order and, after `RemoveNode(x)`, to `zinke` in another. -/
theorem RemoveNode_keeps_other_winners_counterexample :
    (IterOrder (AddWeightedNode exactArith New "a" 0) ["a"] ∧
      Resolve exactArith (AddWeightedNode exactArith New "a" 0) ["a"] "k" = .ok "" ∧
      IterOrder (RemoveNode (AddWeightedNode exactArith New "a" 0) ["a"] "a") [] ∧
      Resolve exactArith (RemoveNode (AddWeightedNode exactArith New "a" 0) ["a"] "a") [] "k" =
        .error .noServerAvailable) ∧
    (IterOrder (AddWeightedNodes exactArith New [("altarage", 1), ("zinke", 1), ("x", 0)])
        ["altarage", "zinke", "x"] ∧
      Resolve exactArith (AddWeightedNodes exactArith New [("altarage", 1), ("zinke", 1), ("x", 0)])
        ["altarage", "zinke", "x"] "k" = .ok "altarage" ∧
      IterOrder (RemoveNode (AddWeightedNodes exactArith New
          [("altarage", 1), ("zinke", 1), ("x", 0)]) ["altarage", "zinke", "x"] "x")
        ["zinke", "altarage"] ∧
      Resolve exactArith (RemoveNode (AddWeightedNodes exactArith New
          [("altarage", 1), ("zinke", 1), ("x", 0)]) ["altarage", "zinke", "x"] "x")
        ["zinke", "altarage"] "k" = .ok "zinke") := by
  decide!

/-- C4 (witness): the registry `{liquid: 1, costarring: 1, big: 1000}`, in which `liquid` and
`costarring` have the same score and `big` wins for the key `k`, in two iteration orders. -/
theorem Resolve_order_independent_witness :
    Resolve exactArith (AddWeightedNodes exactArith New
        [("liquid", 1), ("costarring", 1), ("big", 1000)])
      ["liquid", "costarring", "big"] "k" = .ok "big" ∧
    computeWeightedScore exactArith (AddWeightedNodes exactArith New
        [("liquid", 1), ("costarring", 1), ("big", 1000)]) "liquid" "k" =
      computeWeightedScore exactArith (AddWeightedNodes exactArith New
        [("liquid", 1), ("costarring", 1), ("big", 1000)]) "costarring" "k" ∧
    Resolve exactArith (AddWeightedNodes exactArith New
        [("liquid", 1), ("costarring", 1), ("big", 1000)])
      ["liquid", "costarring", "big"] "k" =
    Resolve exactArith (AddWeightedNodes exactArith New
        [("liquid", 1), ("costarring", 1), ("big", 1000)])
      ["big", "costarring", "liquid"] "k" :=
  ⟨by decide!, by decide!,
    Resolve_order_independent exactArith (AddWeightedNodes exactArith New
        [("liquid", 1), ("costarring", 1), ("big", 1000)])
      ["liquid", "costarring", "big"] ["big", "costarring", "liquid"] "k"
      (by decide) (by decide)
      (by
        intro m hm a ha hne s hs _ h
        have hbig : Resolve exactArith (AddWeightedNodes exactArith New
        [("liquid", 1), ("costarring", 1), ("big", 1000)])
            ["liquid", "costarring", "big"] "k" = .ok "big" := by decide!
        rw [hbig] at hm
        cases hm
        rw [← Finmap.mem_keys] at ha
        have hkeys : (AddWeightedNodes exactArith New
        [("liquid", 1), ("costarring", 1), ("big", 1000)]).nodes.keys = {"liquid", "costarring", "big"} := by decide!
        rw [hkeys] at ha
        simp only [Finset.mem_insert, Finset.mem_singleton] at ha
        rcases ha with rfl | rfl | rfl
        · exact absurd (hs.trans h.symm) (by decide!)
        · exact absurd (hs.trans h.symm) (by decide!)
        · exact hne rfl)⟩

/-- C4 (counterexample): `liquid` and `costarring` have the same FNV-1a hash, hence the same
score for every key at equal weights; on `{liquid: 1, costarring: 1}` the key `k` resolves to
`liquid` in one iteration order and to `costarring` in the other. -/
theorem Resolve_order_independent_counterexample :
    fnv32a (bytes "liquid") = fnv32a (bytes "costarring") ∧
    IterOrder (AddWeightedNodes exactArith New [("liquid", 1), ("costarring", 1)])
      ["liquid", "costarring"] ∧
    IterOrder (AddWeightedNodes exactArith New [("liquid", 1), ("costarring", 1)])
      ["costarring", "liquid"] ∧
    Resolve exactArith (AddWeightedNodes exactArith New [("liquid", 1), ("costarring", 1)])
      ["liquid", "costarring"] "k" = .ok "liquid" ∧
    Resolve exactArith (AddWeightedNodes exactArith New [("liquid", 1), ("costarring", 1)])
      ["costarring", "liquid"] "k" = .ok "costarring" := by
  decide!

/-- C5 (witness): the registry `{declinate: 1, macallums: 1}`, whose two nodes have the same
score, visited from `macallums`. -/
theorem Resolve_tie_first_visited_witness :
    ∃ pre m post sm, ["macallums", "declinate"] = pre ++ m :: post ∧
      Resolve exactArith (AddWeightedNodes exactArith New [("declinate", 1), ("macallums", 1)])
        ["macallums", "declinate"] "k" = .ok m ∧
      computeWeightedScore exactArith
        (AddWeightedNodes exactArith New [("declinate", 1), ("macallums", 1)]) m "k" = .ok sm ∧
      (∀ a s, computeWeightedScore exactArith
        (AddWeightedNodes exactArith New [("declinate", 1), ("macallums", 1)]) a "k" = .ok s →
        s.gt sm = false) ∧
      (∀ a ∈ pre, ∀ s, computeWeightedScore exactArith
        (AddWeightedNodes exactArith New [("declinate", 1), ("macallums", 1)]) a "k" = .ok s →
        s.ge sm = false ∧ s ≠ sm) :=
  Resolve_tie_first_visited exactArith
    (AddWeightedNodes exactArith New [("declinate", 1), ("macallums", 1)])
    ["macallums", "declinate"] "k" (by decide)
    ⟨"declinate", exact.mul (float64.fin 1) (exact.div (float64.fin 1) (exact.neg (exact.Log
      (Rendezvous.normalize exactArith (hash New "declinate:k"))))), by decide!, by decide!⟩

/-- C5 (counterexample): on `{declinate: 1, macallums: 1}` both nodes have the same score and
`Resolve` returns `macallums` when the loop visits it first, although `declinate` is the smaller
identifier. -/
theorem Resolve_tie_first_visited_counterexample :
    IterOrder (AddWeightedNodes exactArith New [("declinate", 1), ("macallums", 1)])
      ["macallums", "declinate"] ∧
    computeWeightedScore exactArith
      (AddWeightedNodes exactArith New [("declinate", 1), ("macallums", 1)]) "declinate" "k" =
    computeWeightedScore exactArith
      (AddWeightedNodes exactArith New [("declinate", 1), ("macallums", 1)]) "macallums" "k" ∧
    Resolve exactArith (AddWeightedNodes exactArith New [("declinate", 1), ("macallums", 1)])
      ["macallums", "declinate"] "k" = .ok "macallums" ∧
    "declinate" < "macallums" := by
  decide!

/-- The reference arithmetic follows the sign rule for products. -/
theorem exactArith_MulSign : exactArith.MulSign := by
  intro w x hw hx
  cases x with
  | NaN => simp [float64.gt, float64.toExt] at hx
  | Inf s =>
    cases s
    · by_cases h0 : w = 0
      · subst h0
        simp [exactArith, exact.mul, float64.isZero, float64.gt, float64.toExt]
      · have hlt : (w : ℚ) < 0 := by exact_mod_cast lt_of_le_of_ne hw h0
        have hne : (w : ℚ) ≠ 0 := ne_of_lt hlt
        simp [exactArith, exact.mul, float64.isZero, float64.signbit, hne, hlt, float64.gt,
          float64.toExt]
    · simp [float64.gt, float64.toExt] at hx
  | negZero => simp [float64.gt, float64.toExt] at hx
  | fin q =>
    have hq : 0 < q := by simpa [float64.gt, float64.toExt] using hx
    have hw' : (w : ℚ) ≤ 0 := by exact_mod_cast hw
    have hprod : (w : ℚ) * q ≤ 0 := mul_nonpos_of_nonpos_of_nonneg hw' (le_of_lt hq)
    by_cases h0 : (w : ℚ) * q = 0
    · simp only [exactArith, exact.mul, h0, if_true, float64.zero]
      split <;> simp [float64.gt, float64.toExt]
    · simp only [exactArith, exact.mul, h0, if_false]
      simpa [float64.gt, float64.toExt] using hprod

/-- C6 (amended): under the sign rule for products, a node registered with a weight that is not
positive, for which the factor `1 / -math.Log(u)` of the score is above zero, has a score that is
not above zero, and `Resolve` does not return its identifier unless that identifier is the empty
string, whatever the iteration order. -/
theorem nonpositive_weight_never_wins (fl : Float64Arith) (r : rendezvous)
    (order : List String) (k id : String) (w : Int) (hlaw : fl.MulSign)
    (horder : IterOrder r order) (hw : r.nodes.lookup id = some (fl.ofInt w)) (hle : w ≤ 0)
    (hid : id ≠ "")
    (hfactor : (fl.div (float64.fin 1) (fl.neg (fl.Log
      (Rendezvous.normalize fl (hash r (id ++ ":" ++ k)))))).gt (float64.fin 0) = true) :
    (∃ s, computeWeightedScore fl r id k = .ok s ∧ s.gt (float64.fin 0) = false) ∧
    Resolve fl r order k ≠ .ok id := by
  have hs : computeWeightedScore fl r id k = .ok (fl.mul (fl.ofInt w) (fl.div (float64.fin 1)
      (fl.neg (fl.Log (Rendezvous.normalize fl (hash r (id ++ ":" ++ k))))))) := by
    simp [computeWeightedScore, hw]
  have hnot := hlaw w _ hle hfactor
  refine ⟨⟨_, hs, hnot⟩, ?_⟩
  intro hres
  have hlen : Len r ≠ 0 := fun h =>
    (Len_eq_zero_iff r).mp h id (Finmap.mem_of_lookup_eq_some hw)
  rcases Resolve_spec fl r order k horder hlen with
    ⟨hres1, _⟩ | ⟨_, m, _, sm, _, hres1, hsm, hbeat, _, _⟩
  · rw [hres1] at hres
    cases hres
    exact hid rfl
  · rw [hres1] at hres
    cases hres
    rw [hs] at hsm
    cases hsm
    rw [hnot] at hbeat
    cases hbeat

/-- C6 (witness): the node `b` of weight `-2` in the registry `{a: 1, b: -2}`. -/
theorem nonpositive_weight_never_wins_witness :
    (∃ s, computeWeightedScore exactArith (AddWeightedNodes exactArith New [("a", 1), ("b", -2)])
      "b" "k" = .ok s ∧ s.gt (float64.fin 0) = false) ∧
    Resolve exactArith (AddWeightedNodes exactArith New [("a", 1), ("b", -2)]) ["b", "a"] "k" ≠
      .ok "b" :=
  nonpositive_weight_never_wins exactArith (AddWeightedNodes exactArith New [("a", 1), ("b", -2)])
    ["b", "a"] "k" "b" (-2) exactArith_MulSign (by decide) (by decide!) (by decide) (by decide)
    (by decide!)

/-- C6 (counterexample): on `{"": 0}` the only node has weight zero and `Resolve` returns its
identifier; on `{ckv: -1}` the composite `ckv:ajrn5` has the FNV-1a hash `2^32 - 1`, the score of
the node of negative weight is `+Inf` and `Resolve` returns it. -/
theorem nonpositive_weight_never_wins_counterexample :
    ((AddWeightedNode exactArith New "" 0).nodes.lookup "" = some (exactArith.ofInt 0) ∧
      IterOrder (AddWeightedNode exactArith New "" 0) [""] ∧
      Resolve exactArith (AddWeightedNode exactArith New "" 0) [""] "k" = .ok "") ∧
    ((AddWeightedNode exactArith New "ckv" (-1)).nodes.lookup "ckv" =
        some (exactArith.ofInt (-1)) ∧
      hash New "ckv:ajrn5" = 2 ^ 32 - 1 ∧
      computeWeightedScore exactArith (AddWeightedNode exactArith New "ckv" (-1)) "ckv" "ajrn5" =
        .ok (float64.Inf false) ∧
      IterOrder (AddWeightedNode exactArith New "ckv" (-1)) ["ckv"] ∧
      Resolve exactArith (AddWeightedNode exactArith New "ckv" (-1)) ["ckv"] "ajrn5" =
        .ok "ckv") := by
  decide!

/-! ## The registry operations -/

/-- The keys after an insertion. -/
theorem keys_insert (m : Finmap (fun _ : String => float64)) (a : String) (b : float64) :
    (m.insert a b).keys = insert a m.keys := by
  ext x
  simp [Finmap.mem_keys, Finmap.mem_insert]

/-- C7: after `AddWeightedNode(id, w1)` and `AddWeightedNode(id, w2)` the registry has exactly
one entry for `id`, its weight is `float64(w2)`, `Len()` is what it was after the first call,
and the registry is the one that the second call alone produces. -/
theorem AddWeightedNode_overwrites (fl : Float64Arith) (r : rendezvous) (id : String)
    (w1 w2 : Int) :
    (AddWeightedNode fl (AddWeightedNode fl r id w1) id w2).nodes.lookup id =
      some (fl.ofInt w2) ∧
    Multiset.count id (AddWeightedNode fl (AddWeightedNode fl r id w1) id w2).nodes.entries.keys
      = 1 ∧
    Len (AddWeightedNode fl (AddWeightedNode fl r id w1) id w2) =
      Len (AddWeightedNode fl r id w1) ∧
    AddWeightedNode fl (AddWeightedNode fl r id w1) id w2 = AddWeightedNode fl r id w2 := by
  refine ⟨?_, ?_, ?_, ?_⟩
  · simp [AddWeightedNode, Finmap.lookup_insert]
  · have hmem : id ∈ (AddWeightedNode fl (AddWeightedNode fl r id w1) id w2).nodes.keys := by
      simp [AddWeightedNode, keys_insert]
    exact Multiset.count_eq_one_of_mem
      (AddWeightedNode fl (AddWeightedNode fl r id w1) id w2).nodes.keys.nodup hmem
  · simp [Len, AddWeightedNode, keys_insert]
  · simp [AddWeightedNode, Finmap.insert_insert]

/-- C8: `RemoveNode(id)` on a registry that contains `id` yields a registry without `id`, in
which every other identifier has the entry it had, with the same hasher and with `Len()` smaller
by one. -/
theorem RemoveNode_present (r : rendezvous) (order : List String) (id : String)
    (horder : IterOrder r order) (hid : id ∈ r.nodes) :
    id ∉ (RemoveNode r order id).nodes ∧
    (∀ a, a ≠ id → (RemoveNode r order id).nodes.lookup a = r.nodes.lookup a) ∧
    Len (RemoveNode r order id) + 1 = Len r ∧
    (RemoveNode r order id).Hasher = r.Hasher := by
  rw [RemoveNode_of_IterOrder r order id horder]
  refine ⟨Finmap.not_mem_erase_self, fun a ha => Finmap.lookup_erase_ne ha, ?_, rfl⟩
  simp only [Len, Finmap.keys_erase]
  exact Finset.card_erase_add_one (Finmap.mem_keys.mpr hid)

/-- C8 (witness): the removal of `w1 node` from `{w1 node: 1, w50 node: 50}`, as in the test
suite. -/
theorem RemoveNode_present_witness :
    "w1 node" ∉ (RemoveNode (AddWeightedNode exactArith (AddNode exactArith New "w1 node")
      "w50 node" 50) ["w50 node", "w1 node"] "w1 node").nodes ∧
    (∀ a, a ≠ "w1 node" → (RemoveNode (AddWeightedNode exactArith (AddNode exactArith New "w1 node")
      "w50 node" 50) ["w50 node", "w1 node"] "w1 node").nodes.lookup a =
      (AddWeightedNode exactArith (AddNode exactArith New "w1 node") "w50 node" 50).nodes.lookup a) ∧
    Len (RemoveNode (AddWeightedNode exactArith (AddNode exactArith New "w1 node")
      "w50 node" 50) ["w50 node", "w1 node"] "w1 node") + 1 =
      Len (AddWeightedNode exactArith (AddNode exactArith New "w1 node") "w50 node" 50) ∧
    (RemoveNode (AddWeightedNode exactArith (AddNode exactArith New "w1 node")
      "w50 node" 50) ["w50 node", "w1 node"] "w1 node").Hasher =
      (AddWeightedNode exactArith (AddNode exactArith New "w1 node") "w50 node" 50).Hasher :=
  RemoveNode_present (AddWeightedNode exactArith (AddNode exactArith New "w1 node") "w50 node" 50)
    ["w50 node", "w1 node"] "w1 node" (by decide) (by decide)

/-- C9: `RemoveNode(id)` returns a registry in every case; when `id` is absent that registry is
the one it received, so every entry and `Len()` are unchanged; and a second `RemoveNode(id)`
changes nothing after the first, whatever the iteration orders. -/
theorem RemoveNode_idempotent (r : rendezvous) (order : List String) (id : String)
    (horder : IterOrder r order) :
    (id ∉ r.nodes → RemoveNode r order id = r ∧ Len (RemoveNode r order id) = Len r) ∧
    (∀ order2 : List String,
      RemoveNode (RemoveNode r order id) order2 id = RemoveNode r order id) := by
  have habsent : ∀ (r' : rendezvous) (o : List String), id ∉ r'.nodes →
      RemoveNode r' o id = r' := by
    intro r' o h
    rw [RemoveNode_eq]
    split
    · rw [Finmap_erase_of_not_mem r'.nodes id h]
    · rfl
  refine ⟨fun h => ?_, fun order2 => ?_⟩
  · rw [habsent r order h]
    exact ⟨rfl, rfl⟩
  · apply habsent
    rw [RemoveNode_of_IterOrder r order id horder]
    exact Finmap.not_mem_erase_self

/-- C9 (witness): the removal of the absent `w2 node` from `{w1 node: 1}`, and the removal of
`w1 node` twice. -/
theorem RemoveNode_idempotent_witness :
    (RemoveNode (AddNode exactArith New "w1 node") ["w1 node"] "w2 node" =
        AddNode exactArith New "w1 node" ∧
      Len (RemoveNode (AddNode exactArith New "w1 node") ["w1 node"] "w2 node") =
        Len (AddNode exactArith New "w1 node")) ∧
    RemoveNode (RemoveNode (AddNode exactArith New "w1 node") ["w1 node"] "w1 node") [] "w1 node" =
      RemoveNode (AddNode exactArith New "w1 node") ["w1 node"] "w1 node" :=
  ⟨(RemoveNode_idempotent (AddNode exactArith New "w1 node") ["w1 node"] "w2 node"
      (by decide)).1 (by decide),
    (RemoveNode_idempotent (AddNode exactArith New "w1 node") ["w1 node"] "w1 node"
      (by decide)).2 []⟩

theorem AddWeightedNodes_lookup_of_not_mem (fl : Float64Arith) (a : String) :
    ∀ (pairs : List (String × Int)) (r : rendezvous), a ∉ pairs.map Prod.fst →
      (AddWeightedNodes fl r pairs).nodes.lookup a = r.nodes.lookup a := by
  intro pairs
  induction pairs with
  | nil => intro r _; rfl
  | cons x rest ih =>
    intro r ha
    rw [List.map_cons, List.mem_cons, not_or] at ha
    have hstep : AddWeightedNodes fl r (x :: rest) =
        AddWeightedNodes fl { r with nodes := r.nodes.insert x.1 (fl.ofInt x.2) } rest := rfl
    rw [hstep, ih _ ha.2]
    exact Finmap.lookup_insert_of_ne _ ha.1

theorem AddWeightedNodes_lookup_of_mem (fl : Float64Arith) :
    ∀ (pairs : List (String × Int)) (r : rendezvous), (pairs.map Prod.fst).Nodup →
      ∀ kv ∈ pairs, (AddWeightedNodes fl r pairs).nodes.lookup kv.1 = some (fl.ofInt kv.2) := by
  intro pairs
  induction pairs with
  | nil => intro r _ kv hkv; cases hkv
  | cons x rest ih =>
    intro r hnodup kv hkv
    rw [List.map_cons, List.nodup_cons] at hnodup
    have hstep : AddWeightedNodes fl r (x :: rest) =
        AddWeightedNodes fl { r with nodes := r.nodes.insert x.1 (fl.ofInt x.2) } rest := rfl
    rw [hstep]
    rcases List.mem_cons.mp hkv with rfl | hkv
    · rw [AddWeightedNodes_lookup_of_not_mem fl kv.1 rest _ hnodup.1]
      exact Finmap.lookup_insert _
    · exact ih _ hnodup.2 kv hkv

/-- C10: for an argument map `pairs` (a sequence of entries with distinct keys),
`AddWeightedNodes(pairs)` produces the registry that `AddWeightedNode` produces when applied
once for each pair, in any order `ps` of the pairs: every identifier of `pairs` has its weight of
`pairs` and every other identifier keeps its entry or its absence. -/
theorem AddWeightedNodes_refines (fl : Float64Arith) (r : rendezvous)
    (pairs ps : List (String × Int)) (hkeys : (pairs.map Prod.fst).Nodup)
    (hperm : ps.Perm pairs) :
    AddWeightedNodes fl r pairs = AddWeightedNodes_spec fl r ps ∧
    (∀ kv ∈ pairs, (AddWeightedNodes fl r pairs).nodes.lookup kv.1 = some (fl.ofInt kv.2)) ∧
    (∀ a, a ∉ pairs.map Prod.fst →
      (AddWeightedNodes fl r pairs).nodes.lookup a = r.nodes.lookup a) := by
  refine ⟨?_, AddWeightedNodes_lookup_of_mem fl pairs r hkeys,
    fun a ha => AddWeightedNodes_lookup_of_not_mem fl a pairs r ha⟩
  have hsame : AddWeightedNodes fl r pairs = AddWeightedNodes_spec fl r pairs := rfl
  rw [hsame]
  unfold AddWeightedNodes_spec
  refine (List.Perm.foldl_eq' hperm ?_ r).symm
  intro x hx y hy z
  by_cases hxy : x.1 = y.1
  · have hx' : x ∈ pairs := hperm.subset hx
    have hy' : y ∈ pairs := hperm.subset hy
    have : x = y := List.inj_on_of_nodup_map hkeys hx' hy' hxy
    rw [this]
  · simp only [AddWeightedNode]
    rw [Finmap.insert_insert_of_ne _ hxy]

/-- C10 (witness): the four nodes of the test suite, added one by one in another order. -/
theorem AddWeightedNodes_refines_witness :
    AddWeightedNodes exactArith New
        [("s1.test.net", 5), ("s2,test.net", 4), ("s3.test.net", 3), ("s4.test.net", 2)] =
      AddWeightedNodes_spec exactArith New
        [("s3.test.net", 3), ("s1.test.net", 5), ("s4.test.net", 2), ("s2,test.net", 4)] ∧
    (∀ kv ∈ [("s1.test.net", (5 : Int)), ("s2,test.net", 4), ("s3.test.net", 3),
        ("s4.test.net", 2)],
      (AddWeightedNodes exactArith New
        [("s1.test.net", 5), ("s2,test.net", 4), ("s3.test.net", 3), ("s4.test.net", 2)]
        ).nodes.lookup kv.1 = some (exactArith.ofInt kv.2)) ∧
    (∀ a, a ∉ [("s1.test.net", (5 : Int)), ("s2,test.net", 4), ("s3.test.net", 3),
        ("s4.test.net", 2)].map Prod.fst →
      (AddWeightedNodes exactArith New
        [("s1.test.net", 5), ("s2,test.net", 4), ("s3.test.net", 3), ("s4.test.net", 2)]
        ).nodes.lookup a = New.nodes.lookup a) :=
  AddWeightedNodes_refines exactArith New
    [("s1.test.net", 5), ("s2,test.net", 4), ("s3.test.net", 3), ("s4.test.net", 2)]
    [("s3.test.net", 3), ("s1.test.net", 5), ("s4.test.net", 2), ("s2,test.net", 4)]
    (by decide) (by decide)

/-! ## AddNode, sequential runs and additions -/
/-- C11: `AddNode(id)` produces the registry of `AddWeightedNode(id, 1)`: `id` has the weight
`float64(1)`, every other identifier has the entry it had, and the hasher is unchanged. -/
theorem AddNode_eq_AddWeightedNode_one (fl : Float64Arith) (r : rendezvous) (id : String) :
    AddNode fl r id = AddWeightedNode fl r id 1 ∧
    (AddNode fl r id).nodes.lookup id = some (fl.ofInt 1) ∧
    (∀ a, a ≠ id → (AddNode fl r id).nodes.lookup a = r.nodes.lookup a) ∧
    (AddNode fl r id).Hasher = r.Hasher := by
  refine ⟨rfl, ?_, ?_, rfl⟩
  · simp [AddNode, AddWeightedNode, Finmap.lookup_insert]
  · intro a ha
    simp [AddNode, AddWeightedNode, Finmap.lookup_insert_of_ne _ ha]

/-- C17: in a sequential run, where the loop visits the keys of the registry, every identifier
that `Resolve` passes to `computeWeightedScore` is found, and `Resolve` does not panic with
`... is not a valid node.`. -/
theorem Resolve_never_invalid_node (fl : Float64Arith) (r : rendezvous) (order : List String)
    (k : String) (horder : IterOrder r order) :
    (∀ a ∈ order, ∃ s, computeWeightedScore fl r a k = .ok s) ∧
    (∀ addr, Resolve fl r order k ≠ .error (.notValidNode addr)) := by
  refine ⟨fun a ha => computeWeightedScore_ok fl r a k ((horder.mem_iff a).mp ha), ?_⟩
  intro addr hres
  by_cases hlen : Len r = 0
  · unfold Len at hlen
    simp [Resolve, hlen] at hres
  · rcases Resolve_spec fl r order k horder hlen with ⟨h, _⟩ | ⟨_, m, _, _, _, h, _⟩
    · rw [h] at hres
      cases hres
    · rw [h] at hres
      cases hres

/-- C17 (witness): the registry `{s1.test.com: 1, s2.test.com: 1}` of the test suite. -/
theorem Resolve_never_invalid_node_witness :
    (∀ a ∈ ["s2.test.com", "s1.test.com"], ∃ s, computeWeightedScore exactArith
      (AddNode exactArith (AddNode exactArith New "s1.test.com") "s2.test.com") a "request" =
        .ok s) ∧
    (∀ addr, Resolve exactArith
      (AddNode exactArith (AddNode exactArith New "s1.test.com") "s2.test.com")
      ["s2.test.com", "s1.test.com"] "request" ≠ .error (.notValidNode addr)) :=
  Resolve_never_invalid_node exactArith
    (AddNode exactArith (AddNode exactArith New "s1.test.com") "s2.test.com")
    ["s2.test.com", "s1.test.com"] "request" (by decide)

/-- C18: on a non-empty registry in which no node has a score above zero for the key, `Resolve`
returns the empty string, registered or not; and an identifier other than the empty string is
returned only if it is registered with a score above zero. -/
theorem Resolve_empty_string_without_positive_score (fl : Float64Arith) (r : rendezvous)
    (order : List String) (k : String) (horder : IterOrder r order) (hlen : Len r ≠ 0) :
    ((∀ a s, computeWeightedScore fl r a k = .ok s → s.gt (float64.fin 0) = false) →
      Resolve fl r order k = .ok "") ∧
    (∀ m, Resolve fl r order k = .ok m → m ≠ "" →
      ∃ s, computeWeightedScore fl r m k = .ok s ∧ s.gt (float64.fin 0) = true) := by
  rcases Resolve_spec fl r order k horder hlen with
    ⟨hres, _⟩ | ⟨_, m, _, sm, _, hres, hsm, hbeat, _, _⟩
  · refine ⟨fun _ => hres, ?_⟩
    intro m hm hne
    rw [hres] at hm
    cases hm
    exact absurd rfl hne
  · refine ⟨?_, ?_⟩
    · intro hall
      rw [hall m sm hsm] at hbeat
      cases hbeat
    · intro m' hm' _
      rw [hres] at hm'
      cases hm'
      exact ⟨sm, hsm, hbeat⟩

/-- C18 (witness): the registry `{a: 0, b: -3}`, in which no score is above zero. -/
theorem Resolve_empty_string_without_positive_score_witness :
    Resolve exactArith (AddWeightedNodes exactArith New [("a", 0), ("b", -3)]) ["b", "a"] "k" =
      .ok "" ∧
    (∀ m, Resolve exactArith (AddWeightedNodes exactArith New [("a", 0), ("b", -3)]) ["b", "a"]
        "k" = .ok m → m ≠ "" →
      ∃ s, computeWeightedScore exactArith (AddWeightedNodes exactArith New [("a", 0), ("b", -3)])
        m "k" = .ok s ∧ s.gt (float64.fin 0) = true) :=
  ⟨(Resolve_empty_string_without_positive_score exactArith
      (AddWeightedNodes exactArith New [("a", 0), ("b", -3)]) ["b", "a"] "k"
      (by decide) (by decide!)).1
      (by
        intro a s hs
        have ha := computeWeightedScore_mem _ _ _ _ _ hs
        rw [← Finmap.mem_keys] at ha
        have hkeys : (AddWeightedNodes exactArith New [("a", 0), ("b", -3)]).nodes.keys =
            {"a", "b"} := by decide!
        rw [hkeys] at ha
        simp only [Finset.mem_insert, Finset.mem_singleton] at ha
        rcases ha with rfl | rfl
        · have h0 : computeWeightedScore exactArith
              (AddWeightedNodes exactArith New [("a", 0), ("b", -3)]) "a" "k" =
              .ok (float64.fin 0) := by decide!
          rw [h0] at hs
          cases hs
          decide!
        · have h0 : computeWeightedScore exactArith
              (AddWeightedNodes exactArith New [("a", 0), ("b", -3)]) "b" "k" =
              .ok (exact.mul (float64.fin (-3)) (exact.div (float64.fin 1) (exact.neg (exact.Log
                (Rendezvous.normalize exactArith (hash New "b:k")))))) := by decide!
          rw [h0] at hs
          cases hs
          decide!),
    (Resolve_empty_string_without_positive_score exactArith
      (AddWeightedNodes exactArith New [("a", 0), ("b", -3)]) ["b", "a"] "k"
      (by decide) (by decide!)).2⟩

/-- C19 (amended): if `Resolve` returns `m` for a key on a registry without `n`, and no node
other than `m` has a score above zero equal to the score of `m`, then after
`AddWeightedNode(n, w)` it returns `m` or `n` for that key, whatever the iteration orders. -/
theorem AddWeightedNode_moves_keys_only_to_new_node (fl : Float64Arith) (r : rendezvous)
    (o1 o2 : List String) (n m k : String) (w : Int)
    (horder1 : IterOrder r o1) (horder2 : IterOrder (AddWeightedNode fl r n w) o2)
    (hn : n ∉ r.nodes) (hres : Resolve fl r o1 k = .ok m)
    (htie : ∀ a, a ∈ r.nodes → a ≠ m → ∀ s, computeWeightedScore fl r a k = .ok s →
      s.gt (float64.fin 0) = true → computeWeightedScore fl r m k ≠ .ok s) :
    Resolve fl (AddWeightedNode fl r n w) o2 k = .ok m ∨
    Resolve fl (AddWeightedNode fl r n w) o2 k = .ok n := by
  have hlen : Len r ≠ 0 := by
    intro h
    unfold Len at h
    simp [Resolve, h] at hres
  have hscore : ∀ a, a ∈ r.nodes → computeWeightedScore fl (AddWeightedNode fl r n w) a k =
      computeWeightedScore fl r a k := by
    intro a ha
    have hne : a ≠ n := fun h => hn (h ▸ ha)
    simp [computeWeightedScore, AddWeightedNode, Finmap.lookup_insert_of_ne _ hne, hash]
  have hlen' : Len (AddWeightedNode fl r n w) ≠ 0 := fun h =>
    (Len_eq_zero_iff _).mp h n (by simp [AddWeightedNode, Finmap.mem_insert])
  have hold : ∀ a, a ∈ (AddWeightedNode fl r n w).nodes → a ≠ n → a ∈ r.nodes := by
    intro a ha hne
    rcases Finmap.mem_insert.mp ha with h | h
    · exact absurd h hne
    · exact h
  rcases Resolve_spec fl _ o2 k horder2 hlen' with
    ⟨hres2, hall2⟩ | ⟨_, m2, _, sm2, _, hres2, hsm2, hbeat2, _, hmax2⟩
  · left
    rcases Resolve_spec fl r o1 k horder1 hlen with
      ⟨hres1, _⟩ | ⟨_, m1, _, sm1, _, hres1, hsm1, hbeat1, _, _⟩
    · rw [hres1] at hres
      cases hres
      exact hres2
    · have hm1 := computeWeightedScore_mem fl r m1 k sm1 hsm1
      rw [← hscore m1 hm1] at hsm1
      rw [hall2 m1 sm1 hsm1] at hbeat1
      cases hbeat1
  · by_cases hm2n : m2 = n
    · right
      rw [hres2, hm2n]
    · left
      have hm2 : m2 ∈ r.nodes := hold m2 (computeWeightedScore_mem fl _ m2 k sm2 hsm2) hm2n
      have hsm2r : computeWeightedScore fl r m2 k = .ok sm2 := by rw [← hscore m2 hm2, hsm2]
      rcases Resolve_spec fl r o1 k horder1 hlen with
        ⟨_, hall1⟩ | ⟨_, m1, _, sm1, _, hres1, hsm1, hbeat1, _, hmax1⟩
      · rw [hall1 m2 sm2 hsm2r] at hbeat2
        cases hbeat2
      · rw [hres1] at hres
        cases hres
        by_cases heq : m2 = m
        · rw [hres2, heq]
        · exfalso
          have hm1 := computeWeightedScore_mem fl r m k sm1 hsm1
          have hsm1' : computeWeightedScore fl (AddWeightedNode fl r n w) m k = .ok sm1 := by
            rw [hscore m hm1, hsm1]
          have h1 : sm2.gt sm1 = false := hmax1 m2 sm2 hsm2r
          have h2 : sm1.gt sm2 = false := hmax2 m sm1 hsm1'
          have : sm2 = sm1 := float64.eq_of_not_gt hbeat2 hbeat1 h1 h2
          subst this
          exact htie m2 hm2 heq sm2 hsm2r hbeat2 hsm1

/-- C19 (witness): the registry `{s1.test.com: 1, s2.test.com: 1}` of the test suite, the key
`request` and the addition of `s3.test.com` with weight `3`. -/
theorem AddWeightedNode_moves_keys_only_to_new_node_witness :
    Resolve exactArith (AddWeightedNode exactArith
        (AddNode exactArith (AddNode exactArith New "s1.test.com") "s2.test.com")
        "s3.test.com" 3) ["s3.test.com", "s2.test.com", "s1.test.com"] "request" =
      .ok "s2.test.com" ∨
    Resolve exactArith (AddWeightedNode exactArith
        (AddNode exactArith (AddNode exactArith New "s1.test.com") "s2.test.com")
        "s3.test.com" 3) ["s3.test.com", "s2.test.com", "s1.test.com"] "request" =
      .ok "s3.test.com" :=
  AddWeightedNode_moves_keys_only_to_new_node exactArith
    (AddNode exactArith (AddNode exactArith New "s1.test.com") "s2.test.com")
    ["s1.test.com", "s2.test.com"] ["s3.test.com", "s2.test.com", "s1.test.com"]
    "s3.test.com" "s2.test.com" "request" 3 (by decide) (by decide) (by decide) (by decide!)
    (by
      intro a ha hm s hs _ h
      rw [← Finmap.mem_keys] at ha
      have hkeys : (AddNode exactArith (AddNode exactArith New "s1.test.com")
          "s2.test.com").nodes.keys = {"s1.test.com", "s2.test.com"} := by decide!
      rw [hkeys] at ha
      simp only [Finset.mem_insert, Finset.mem_singleton] at ha
      rcases ha with rfl | rfl
      · exact absurd (hs.trans h.symm) (by decide!)
      · exact hm rfl)

/-- C19 (counterexample): on `{liquid: 1, costarring: 1}`, whose nodes have the same score, the
key `k` resolves to `liquid` in one iteration order and, after `AddWeightedNode(x, 0)`, to
`costarring` in another; and on the empty registry `Resolve` panics, and after
`AddWeightedNode(a, 0)` it returns the empty string. -/
theorem AddWeightedNode_moves_keys_only_to_new_node_counterexample :
    (IterOrder (AddWeightedNodes exactArith New [("liquid", 1), ("costarring", 1)])
        ["liquid", "costarring"] ∧
      Resolve exactArith (AddWeightedNodes exactArith New [("liquid", 1), ("costarring", 1)])
        ["liquid", "costarring"] "k" = .ok "liquid" ∧
      "x" ∉ (AddWeightedNodes exactArith New [("liquid", 1), ("costarring", 1)]).nodes ∧
      IterOrder (AddWeightedNode exactArith
        (AddWeightedNodes exactArith New [("liquid", 1), ("costarring", 1)]) "x" 0)
        ["costarring", "x", "liquid"] ∧
      Resolve exactArith (AddWeightedNode exactArith
        (AddWeightedNodes exactArith New [("liquid", 1), ("costarring", 1)]) "x" 0)
        ["costarring", "x", "liquid"] "k" = .ok "costarring") ∧
    (Resolve exactArith New [] "k" = .error .noServerAvailable ∧
      IterOrder (AddWeightedNode exactArith New "a" 0) ["a"] ∧
      Resolve exactArith (AddWeightedNode exactArith New "a" 0) ["a"] "k" = .ok "") := by
  decide!

/-- Two lists that agree after a first separator that neither contains before it agree before
and after it. -/
theorem append_sep_inj {α : Type} (c : α) :
    ∀ (l1 l2 r1 r2 : List α), c ∉ l1 → c ∉ l2 → l1 ++ c :: r1 = l2 ++ c :: r2 →
      l1 = l2 ∧ r1 = r2 := by
  intro l1
  induction l1 with
  | nil =>
    intro l2 r1 r2 _ h2 h
    cases l2 with
    | nil => exact ⟨rfl, by simpa using h⟩
    | cons b l2 =>
      simp only [List.nil_append, List.cons_append, List.cons.injEq] at h
      exact absurd (h.1 ▸ List.mem_cons_self _ _) h2
  | cons a l1 ih =>
    intro l2 r1 r2 h1 h2 h
    cases l2 with
    | nil =>
      simp only [List.nil_append, List.cons_append, List.cons.injEq] at h
      exact absurd (h.1 ▸ List.mem_cons_self _ _) h1
    | cons b l2 =>
      simp only [List.cons_append, List.cons.injEq] at h
      obtain ⟨hl, hr⟩ := ih l2 r1 r2 (fun hc => h1 (List.mem_cons_of_mem _ hc))
        (fun hc => h2 (List.mem_cons_of_mem _ hc)) h.2
      exact ⟨by rw [h.1, hl], hr⟩

/-- The hash in `computeWeightedScore` is the hash of the composite key. -/
theorem computeWeightedScore_composite (fl : Float64Arith) (r : rendezvous)
    (addr request : String) (weight : float64) (h : r.nodes.lookup addr = some weight) :
    computeWeightedScore fl r addr request = .ok (fl.mul weight (fl.div (float64.fin 1)
      (fl.neg (fl.Log (Rendezvous.normalize fl (hash r (composite addr request))))))) := by
  simp [computeWeightedScore, h, composite]

/-- C15 (amended): on identifiers that do not contain the separator `:`, the composite key is
injective: two pairs of an identifier and a request key with the same composite are the same
pair. -/
theorem composite_injective_without_colon (id1 id2 k1 k2 : String)
    (h1 : ':' ∉ id1.data) (h2 : ':' ∉ id2.data)
    (h : composite id1 k1 = composite id2 k2) : id1 = id2 ∧ k1 = k2 := by
  have hd : id1.data ++ ':' :: k1.data = id2.data ++ ':' :: k2.data := by
    have := congrArg String.data h
    simpa [composite, String.data_append] using this
  obtain ⟨ha, hb⟩ := append_sep_inj ':' _ _ _ _ h1 h2 hd
  exact ⟨String.ext ha, String.ext hb⟩

/-- C15 (witness): the pairs `(s1.test.com, request)` and itself. -/
theorem composite_injective_without_colon_witness :
    ':' ∉ "s1.test.com".data ∧ composite "s1.test.com" "request" = "s1.test.com:request" ∧
    ("s1.test.com" = "s1.test.com" ∧ "request" = "request") :=
  ⟨by decide, by decide,
    composite_injective_without_colon "s1.test.com" "s1.test.com" "request" "request"
      (by decide) (by decide) rfl⟩

/-- C15 (counterexample): the pairs `(a:b, c)` and `(a, b:c)` differ and have the same
composite `a:b:c`, hence the same hash and the same factor in the score. -/
theorem composite_injective_without_colon_counterexample :
    ("a:b", "c") ≠ ("a", "b:c") ∧ composite "a:b" "c" = composite "a" "b:c" ∧
    hash New (composite "a:b" "c") = hash New (composite "a" "b:c") := by
  decide

/-! ## The platform arithmetic and normalize -/
/-- The approximant of the logarithm in the reference arithmetic lies between the two classical
bounds of the logarithm. -/
theorem exact.Log_bracket (q : ℚ) (h0 : 0 < q) (h1 : q < 1) :
    1 - 1 / q ≤ 2 * (q - 1) / (q + 1) ∧ 2 * (q - 1) / (q + 1) ≤ q - 1 := by
  have hq1 : 0 < q + 1 := by linarith
  constructor
  · rw [le_div_iff₀ hq1, sub_mul, one_div, inv_mul_eq_div]
    have : (q + 1) / q = 1 + 1 / q := by field_simp
    rw [this]
    have hinv : 2 - q ≤ 1 / q := by
      rw [le_div_iff₀ h0]
      nlinarith [sq_nonneg (q - 1)]
    linarith
  · rw [div_le_iff₀ hq1]
    nlinarith [sq_nonneg (q - 1)]

/-- The reference arithmetic has the properties of double precision that the scores use. -/
theorem exactArith_Faithful : exactArith.Faithful where
  ofInt_exact := fun n _ => rfl
  ofInt_near := fun n _ => ⟨n, rfl, by
    simp only [sub_self, abs_zero]
    exact mul_nonneg (by norm_num [eps]) (abs_nonneg _)⟩
  add_one := fun a _ => by
    simp [exactArith, exact.add]
  div_bound := fun n hn _ => by
    have hn' : (n : ℚ) ≠ 0 := by exact_mod_cast hn.ne'
    simp [exactArith, exact.div, uint32Bound, hn']
  Log_one := by
    simp [exactArith, exact.Log]
  Log_below_one := fun n hn hlt => by
    have hn' : (0 : ℚ) < n := by exact_mod_cast hn
    have hq0 : (0 : ℚ) < n / 2 ^ 32 := by positivity
    have hq1 : (n : ℚ) / 2 ^ 32 < 1 := by
      rw [div_lt_one (by positivity)]
      exact_mod_cast hlt
    refine ⟨2 * (n / 2 ^ 32 - 1) / (n / 2 ^ 32 + 1), ?_, ?_⟩
    · simp [exactArith, exact.Log, not_lt.mpr hq0.le, hq0.ne']
    · have hb := exact.Log_bracket _ hq0 hq1
      have hinv : 1 / ((n : ℚ) / 2 ^ 32) = 2 ^ 32 / n := by
        rw [one_div, inv_div]
      rw [hinv] at hb
      exact hb
  neg_zero := by
    simp [exactArith, exact.neg]
  neg_fin := fun q hq => by
    simp [exactArith, exact.neg, hq]
  div_near := fun p q hp hq _ _ => ⟨p / q, by simp [exactArith, exact.div, hp, hq], by
    simp only [sub_self, abs_zero]
    exact mul_nonneg (by norm_num [eps]) (abs_nonneg _)⟩
  mul_near := fun p q hp hq _ _ => ⟨p * q, by simp [exactArith, exact.mul, hp, hq], by
    simp only [sub_self, abs_zero]
    exact mul_nonneg (by norm_num [eps]) (abs_nonneg _)⟩
  mul_zero := fun q => by
    simp only [exactArith, exact.mul, zero_mul, if_true, float64.zero]
    split <;> simp [float64.isZero]

/-- Under the properties of double precision, `normalize(h)` is `(h + 1) / 2^32`. -/
theorem normalize_eq (fl : Float64Arith) (hf : fl.Faithful) (h : Nat) (hh : h < 2 ^ 32) :
    Rendezvous.normalize fl h = float64.fin (((h : ℚ) + 1) / 2 ^ 32) := by
  unfold Rendezvous.normalize
  rw [hf.add_one h hh]
  have := hf.div_bound (h + 1) (Nat.succ_pos h) (by omega)
  push_cast at this
  exact this

/-- C12: under the properties of double precision, for every `uint32` value `h` the result of
`normalize(h)` is `(h + 1) / 2^32`, computed without wrap-around: it is above zero and at most
one, and it is one at `h = 2^32 - 1`. -/
theorem normalize_range (fl : Float64Arith) (hf : fl.Faithful) (h : Nat) (hh : h < 2 ^ 32) :
    Rendezvous.normalize fl h = float64.fin (((h : ℚ) + 1) / 2 ^ 32) ∧
    (Rendezvous.normalize fl h).gt (float64.fin 0) = true ∧
    (float64.fin 1).ge (Rendezvous.normalize fl h) = true ∧
    Rendezvous.normalize fl (2 ^ 32 - 1) = float64.fin 1 := by
  have hle : ((h : ℚ) + 1) / 2 ^ 32 ≤ 1 := by
    rw [div_le_one (by positivity)]
    have : h + 1 ≤ 2 ^ 32 := hh
    exact_mod_cast this
  have hpos : (0 : ℚ) < ((h : ℚ) + 1) / 2 ^ 32 := by positivity
  refine ⟨normalize_eq fl hf h hh, ?_, ?_, ?_⟩
  · rw [normalize_eq fl hf h hh]
    simpa [float64.gt, float64.toExt] using hpos
  · rw [normalize_eq fl hf h hh]
    simpa [float64.ge, float64.toExt] using hle
  · rw [normalize_eq fl hf (2 ^ 32 - 1) (by norm_num)]
    norm_num

/-- C12 (witness): the reference arithmetic at the hash of `a:k`. -/
theorem normalize_range_witness :
    Rendezvous.normalize exactArith (hash New "a:k") =
      float64.fin ((((hash New "a:k" : Nat) : ℚ) + 1) / 2 ^ 32) ∧
    (Rendezvous.normalize exactArith (hash New "a:k")).gt (float64.fin 0) = true ∧
    (float64.fin 1).ge (Rendezvous.normalize exactArith (hash New "a:k")) = true ∧
    Rendezvous.normalize exactArith (2 ^ 32 - 1) = float64.fin 1 :=
  normalize_range exactArith exactArith_Faithful (hash New "a:k") (by decide)

theorem eps_pos : 0 < eps := by norm_num [eps]

theorem eps_lt : eps < 1 / 2 := by norm_num [eps]

/-- A rounded value has the sign of the exact one and lies within the relative error of it. -/
theorem near_bounds {m x : ℚ} (h : |m - x| ≤ eps * |x|) :
    (0 < x → (1 - eps) * x ≤ m ∧ m ≤ (1 + eps) * x ∧ 0 < m) ∧
    (x < 0 → (1 + eps) * x ≤ m ∧ m ≤ (1 - eps) * x ∧ m < 0) := by
  have he := eps_pos
  have he' := eps_lt
  rw [abs_le] at h
  constructor
  · intro hx
    rw [abs_of_pos hx] at h
    refine ⟨by linarith, by linarith, ?_⟩
    nlinarith
  · intro hx
    rw [abs_of_neg hx] at h
    refine ⟨by linarith, by linarith, ?_⟩
    nlinarith

/-- Under the properties of double precision, for a hash `h` below `2^32 - 1` and
`u = (h + 1) / 2^32`: `math.Log(u)` is negative, the divisor `-math.Log(u)` is its opposite, and
the factor `1.0 / -math.Log(u)` lies between `(1 - eps) u / (1 - u)` and `(1 + eps) / (1 - u)`. -/
theorem factor_bounds (fl : Float64Arith) (hf : fl.Faithful) (h : Nat) (hh : h + 1 < 2 ^ 32)
    (u : ℚ) (hu : u = ((h : ℚ) + 1) / 2 ^ 32) :
    ∃ l d : ℚ, fl.Log (Rendezvous.normalize fl h) = float64.fin l ∧ l < 0 ∧
      fl.neg (fl.Log (Rendezvous.normalize fl h)) = float64.fin (-l) ∧
      fl.div (float64.fin 1) (fl.neg (fl.Log (Rendezvous.normalize fl h))) = float64.fin d ∧
      (1 - eps) * (u / (1 - u)) ≤ d ∧ d ≤ (1 + eps) * (1 / (1 - u)) ∧
      1 / 2 ^ 33 ≤ d ∧ d ≤ 2 ^ 33 := by
  have he := eps_pos
  have he' := eps_lt
  have hn0 : (0 : ℚ) < (h : ℚ) + 1 := by positivity
  have hu0 : 0 < u := by rw [hu]; positivity
  have hnlt : (h : ℚ) + 1 ≤ 2 ^ 32 - 1 := by
    have h2 : h + 2 ≤ 2 ^ 32 := by omega
    have h3 : ((h + 2 : ℕ) : ℚ) ≤ ((2 ^ 32 : ℕ) : ℚ) := Nat.cast_le.mpr h2
    push_cast at h3
    linarith
  have hu1 : u ≤ 1 - 1 / 2 ^ 32 := by
    rw [hu, div_le_iff₀ (by positivity)]
    linarith
  have hulo : 1 / 2 ^ 32 ≤ u := by
    rw [hu]
    apply div_le_div_of_nonneg_right _ (by positivity)
    have : (0 : ℚ) ≤ h := Nat.cast_nonneg h
    linarith
  have ha : 0 < 1 - u := by
    have : (0 : ℚ) < 1 / 2 ^ 32 := by positivity
    linarith
  obtain ⟨l, hl, hlo, hhi⟩ := hf.Log_below_one (h + 1) (Nat.succ_pos h) hh
  push_cast at hl hlo hhi
  rw [← hu] at hl hhi
  have hinv : (2 : ℚ) ^ 32 / ((h : ℚ) + 1) = 1 / u := by
    rw [hu, one_div, inv_div]
  rw [hinv] at hlo
  have hnorm : Rendezvous.normalize fl h = float64.fin u := by
    rw [normalize_eq fl hf h (by omega), hu]
  have hlneg : l < 0 := by linarith
  have hneg : fl.neg (float64.fin l) = float64.fin (-l) := hf.neg_fin l (ne_of_lt hlneg)
  have hx : 0 < -l := by linarith
  have hxlo : 1 - u ≤ -l := by linarith
  have hxhi : -l ≤ (1 - u) / u := by
    have : (1 - u) / u = 1 / u - 1 := by field_simp
    rw [this]
    linarith
  have hrhi : 1 / -l ≤ 1 / (1 - u) := one_div_le_one_div_of_le ha hxlo
  have hrlo : u / (1 - u) ≤ 1 / -l := by
    have h1 : 1 / ((1 - u) / u) ≤ 1 / -l := one_div_le_one_div_of_le hx hxhi
    rwa [one_div_div] at h1
  have hpos : 0 < 1 / -l := by positivity
  have hb1 : 1 / (1 - u) ≤ 2 ^ 32 := by
    rw [div_le_iff₀ ha]
    have : (2 : ℚ) ^ 32 * (1 / 2 ^ 32) = 1 := by norm_num
    nlinarith
  have hb2 : 1 / 2 ^ 32 ≤ u / (1 - u) := by
    rw [le_div_iff₀ ha]
    have : (0 : ℚ) < 1 / 2 ^ 32 := by positivity
    nlinarith
  obtain ⟨d, hd, hdn⟩ := hf.div_near 1 (-l) one_ne_zero (ne_of_gt hx)
    (by rw [abs_of_pos hpos]
        refine le_trans ?_ (le_trans hb2 hrlo)
        norm_num)
    (by rw [abs_of_pos hpos]
        refine le_trans hrhi (le_trans hb1 ?_)
        norm_num)
  obtain ⟨hd1, hd2, _⟩ := (near_bounds hdn).1 hpos
  have hlow : (1 - eps) * (u / (1 - u)) ≤ d :=
    le_trans (mul_le_mul_of_nonneg_left hrlo (by linarith)) hd1
  have hupp : d ≤ (1 + eps) * (1 / (1 - u)) :=
    le_trans hd2 (mul_le_mul_of_nonneg_left hrhi (by linarith))
  refine ⟨l, d, by rw [hnorm, hl], hlneg, by rw [hnorm, hl, hneg],
    by rw [hnorm, hl, hneg, hd], hlow, hupp, ?_, ?_⟩
  · refine le_trans ?_ hlow
    have : (1 - eps) * (1 / 2 ^ 32) ≤ (1 - eps) * (u / (1 - u)) :=
      mul_le_mul_of_nonneg_left hb2 (by linarith)
    refine le_trans ?_ this
    norm_num [eps]
  · refine le_trans hupp ?_
    have : (1 + eps) * (1 / (1 - u)) ≤ (1 + eps) * 2 ^ 32 :=
      mul_le_mul_of_nonneg_left hb1 (by linarith)
    refine le_trans this ?_
    norm_num [eps]

/-! ## The sign and the size of a score -/
/-- A zero is not above zero. -/
theorem float64.gt_false_of_isZero {s : float64} (h : s.isZero = true) :
    s.gt (float64.fin 0) = false := by
  cases s with
  | NaN => rfl
  | Inf b => simp [float64.isZero] at h
  | negZero => simp [float64.gt, float64.toExt]
  | fin q =>
    have hq : q = 0 := by simpa [float64.isZero] using h
    simp [float64.gt, float64.toExt, hq]

/-- Under the properties of double precision, the score of a node of positive weight `w` up to
`2^53`, for a hash `h` below `2^32 - 1` and `u = (h + 1) / 2^32`, is a number between
`(1 - eps)^2 w u / (1 - u)` and `(1 + eps)^2 w / (1 - u)`. -/
theorem score_bounds (fl : Float64Arith) (hf : fl.Faithful) (r : rendezvous) (addr k : String)
    (w : Int) (hw : r.nodes.lookup addr = some (fl.ofInt w)) (hw0 : 0 < w) (hw1 : w ≤ 2 ^ 53)
    (hh : hash r (composite addr k) + 1 < 2 ^ 32)
    (u : ℚ) (hu : u = ((hash r (composite addr k) : ℚ) + 1) / 2 ^ 32) :
    ∃ s : ℚ, computeWeightedScore fl r addr k = .ok (float64.fin s) ∧
      (1 - eps) * (w * ((1 - eps) * (u / (1 - u)))) ≤ s ∧
      s ≤ (1 + eps) * (w * ((1 + eps) * (1 / (1 - u)))) := by
  have he := eps_pos
  have he' := eps_lt
  obtain ⟨l, d, _, _, _, hd, hdlo, hdhi, hd33, hd33'⟩ := factor_bounds fl hf _ hh u hu
  have hwq : (0 : ℚ) < w := by exact_mod_cast hw0
  have hwq1 : (1 : ℚ) ≤ w := by exact_mod_cast hw0
  have hwq2 : (w : ℚ) ≤ 2 ^ 53 := by exact_mod_cast hw1
  have hdpos : 0 < d := lt_of_lt_of_le (by positivity) hd33
  have hofInt : fl.ofInt w = float64.fin w :=
    hf.ofInt_exact w (abs_le.mpr ⟨by linarith, hw1⟩)
  have hprod : 0 < (w : ℚ) * d := mul_pos hwq hdpos
  obtain ⟨m, hm, hmn⟩ := hf.mul_near w d (ne_of_gt hwq) (ne_of_gt hdpos)
    (by rw [abs_of_pos hprod]
        have : (1 : ℚ) / 2 ^ 33 ≤ w * d := by nlinarith
        exact le_trans (by norm_num) this)
    (by rw [abs_of_pos hprod]
        have : (w : ℚ) * d ≤ 2 ^ 53 * 2 ^ 33 := mul_le_mul hwq2 hd33' hdpos.le (by positivity)
        exact le_trans this (by norm_num))
  obtain ⟨hm1, hm2, _⟩ := (near_bounds hmn).1 hprod
  refine ⟨m, ?_, ?_, ?_⟩
  · rw [computeWeightedScore_composite fl r addr k _ hw, hd, hofInt, hm]
  · refine le_trans ?_ hm1
    exact mul_le_mul_of_nonneg_left (mul_le_mul_of_nonneg_left hdlo hwq.le) (by linarith)
  · refine le_trans hm2 ?_
    exact mul_le_mul_of_nonneg_left (mul_le_mul_of_nonneg_left hdhi hwq.le) (by linarith)

/-- A node whose score is above zero and above the score of every other node is what `Resolve`
returns, whatever the iteration order. -/
theorem Resolve_eq_of_strict_max (fl : Float64Arith) (r : rendezvous) (order : List String)
    (k b : String) (sb : float64) (horder : IterOrder r order)
    (hb : computeWeightedScore fl r b k = .ok sb) (hpos : sb.gt (float64.fin 0) = true)
    (hmax : ∀ a, a ∈ r.nodes → a ≠ b → ∀ s, computeWeightedScore fl r a k = .ok s →
      sb.gt s = true) :
    Resolve fl r order k = .ok b := by
  have hlen : Len r ≠ 0 := fun h =>
    (Len_eq_zero_iff r).mp h b (computeWeightedScore_mem fl r b k sb hb)
  rcases Resolve_spec fl r order k horder hlen with
    ⟨_, hall⟩ | ⟨_, m, _, sm, _, hres, hsm, _, _, hmax'⟩
  · rw [hall b sb hb] at hpos
    cases hpos
  · by_cases hmb : m = b
    · rw [hres, hmb]
    · have h1 := hmax m (computeWeightedScore_mem fl r m k sm hsm) hmb sm hsm
      rw [hmax' b sb hb] at h1
      cases h1

/-- C20: under the properties of double precision, for a node registered with a 64-bit weight
`w`: when the hash of the composite is not `2^32 - 1` the divisor `-math.Log(u)` is a number above
zero and the score is above zero exactly when `w > 0`, a zero when `w = 0` and below zero when
`w < 0`; and the divisor is a zero exactly when the hash is `2^32 - 1`. -/
theorem score_sign (fl : Float64Arith) (hf : fl.Faithful) (r : rendezvous) (addr k : String)
    (w : Int) (hw : r.nodes.lookup addr = some (fl.ofInt w)) (hrange : |w| ≤ 2 ^ 63) :
    (hash r (composite addr k) ≠ 2 ^ 32 - 1 →
      (∃ x : ℚ, fl.neg (fl.Log (Rendezvous.normalize fl (hash r (composite addr k)))) =
        float64.fin x ∧ 0 < x) ∧
      ∃ s, computeWeightedScore fl r addr k = .ok s ∧
        (s.gt (float64.fin 0) = true ↔ 0 < w) ∧ (w = 0 → s.isZero = true) ∧
        (w < 0 → (float64.fin 0).gt s = true)) ∧
    ((fl.neg (fl.Log (Rendezvous.normalize fl (hash r (composite addr k))))).isZero = true ↔
      hash r (composite addr k) = 2 ^ 32 - 1) := by
  have he := eps_pos
  have he' := eps_lt
  have hlt : hash r (composite addr k) < 2 ^ 32 := Nat.mod_lt _ (by norm_num)
  have hmain : hash r (composite addr k) ≠ 2 ^ 32 - 1 →
      (∃ x : ℚ, fl.neg (fl.Log (Rendezvous.normalize fl (hash r (composite addr k)))) =
        float64.fin x ∧ 0 < x) ∧
      ∃ s, computeWeightedScore fl r addr k = .ok s ∧
        (s.gt (float64.fin 0) = true ↔ 0 < w) ∧ (w = 0 → s.isZero = true) ∧
        (w < 0 → (float64.fin 0).gt s = true) := by
    intro hne
    have hh : hash r (composite addr k) + 1 < 2 ^ 32 := by omega
    obtain ⟨l, d, _, hl, hneg, hd, _, _, hd33, hd33'⟩ := factor_bounds fl hf _ hh _ rfl
    refine ⟨⟨-l, hneg, by linarith⟩, ?_⟩
    have hdpos : 0 < d := lt_of_lt_of_le (by positivity) hd33
    rw [computeWeightedScore_composite fl r addr k _ hw, hd]
    rcases lt_trichotomy w 0 with hneg' | hzero | hpos'
    · obtain ⟨q, hq, hqn⟩ := hf.ofInt_near w hrange
      have hwq : (w : ℚ) < 0 := by exact_mod_cast hneg'
      obtain ⟨hq1, hq2, hq0⟩ := (near_bounds hqn).2 hwq
      have hwq1 : (w : ℚ) ≤ -1 := by exact_mod_cast Int.le_sub_one_of_lt hneg'
      have hwq2 : (-(2 : ℚ) ^ 63) ≤ w := by exact_mod_cast (abs_le.mp hrange).1
      have hqd : q * d < 0 := mul_neg_of_neg_of_pos hq0 hdpos
      obtain ⟨m, hm, hmn⟩ := hf.mul_near q d (ne_of_lt hq0) (ne_of_gt hdpos)
        (by rw [abs_of_neg hqd]
            have h1 : (1 : ℚ) / 2 ≤ -q := by nlinarith
            have : (1 : ℚ) / 2 * (1 / 2 ^ 33) ≤ -q * d :=
              mul_le_mul h1 hd33 (by positivity) (by linarith)
            refine le_trans (by norm_num) (le_trans this (le_of_eq (by ring))))
        (by rw [abs_of_neg hqd]
            have h1 : -q ≤ 2 ^ 64 := by nlinarith
            have : -q * d ≤ 2 ^ 64 * 2 ^ 33 := mul_le_mul h1 hd33' hdpos.le (by positivity)
            refine le_trans (le_of_eq (by ring)) (le_trans this (by norm_num)))
      obtain ⟨_, _, hm0⟩ := (near_bounds hmn).2 hqd
      refine ⟨float64.fin m, by rw [hq, hm], ?_, ?_, ?_⟩
      · simp only [float64.gt, float64.toExt]
        constructor
        · intro h
          simp at h
          linarith
        · intro h
          omega
      · intro h
        omega
      · intro _
        simpa [float64.gt, float64.toExt] using hm0
    · subst hzero
      have h0 : fl.ofInt 0 = float64.fin 0 := by
        have := hf.ofInt_exact 0 (by norm_num)
        simpa using this
      refine ⟨fl.mul (float64.fin 0) (float64.fin d), by rw [h0], ?_, ?_, ?_⟩
      · have hz := hf.mul_zero d
        constructor
        · intro h
          rw [float64.gt_false_of_isZero hz] at h
          cases h
        · intro h
          exact absurd h (lt_irrefl _)
      · intro _
        exact hf.mul_zero d
      · intro h
        exact absurd h (lt_irrefl _)
    · obtain ⟨q, hq, hqn⟩ := hf.ofInt_near w hrange
      have hwq : (0 : ℚ) < w := by exact_mod_cast hpos'
      obtain ⟨hq1, hq2, hq0⟩ := (near_bounds hqn).1 hwq
      have hwq1 : (1 : ℚ) ≤ w := by exact_mod_cast hpos'
      have hwq2 : (w : ℚ) ≤ 2 ^ 63 := by exact_mod_cast (abs_le.mp hrange).2
      have hqd : 0 < q * d := mul_pos hq0 hdpos
      obtain ⟨m, hm, hmn⟩ := hf.mul_near q d (ne_of_gt hq0) (ne_of_gt hdpos)
        (by rw [abs_of_pos hqd]
            have h1 : (1 : ℚ) / 2 ≤ q := by nlinarith
            have : (1 : ℚ) / 2 * (1 / 2 ^ 33) ≤ q * d :=
              mul_le_mul h1 hd33 (by positivity) (by linarith)
            exact le_trans (by norm_num) this)
        (by rw [abs_of_pos hqd]
            have h1 : q ≤ 2 ^ 64 := by nlinarith
            have : q * d ≤ 2 ^ 64 * 2 ^ 33 := mul_le_mul h1 hd33' hdpos.le (by positivity)
            exact le_trans this (by norm_num))
      obtain ⟨_, _, hm0⟩ := (near_bounds hmn).1 hqd
      refine ⟨float64.fin m, by rw [hq, hm], ?_, ?_, ?_⟩
      · constructor
        · intro _
          exact hpos'
        · intro _
          simpa [float64.gt, float64.toExt] using hm0
      · intro h
        omega
      · intro h
        omega
  refine ⟨hmain, ?_, ?_⟩
  · intro hz
    by_contra hne
    obtain ⟨⟨x, hx, hx0⟩, _⟩ := hmain hne
    rw [hx] at hz
    simp [float64.isZero] at hz
    exact (ne_of_gt hx0) hz
  · intro heq
    rw [heq, normalize_eq fl hf _ (by norm_num)]
    have : (((2 ^ 32 - 1 : ℕ) : ℚ) + 1) / 2 ^ 32 = 1 := by norm_num
    rw [this, hf.Log_one, hf.neg_zero]
    rfl

/-! ## The scenarios of the test suite -/
/-- C20 (witness): the node `a` of weight `-2` and the key `k` in the reference arithmetic. -/
theorem score_sign_witness :
    (hash (AddWeightedNode exactArith New "a" (-2)) (composite "a" "k") ≠ 2 ^ 32 - 1 →
      (∃ x : ℚ, exactArith.neg (exactArith.Log (Rendezvous.normalize exactArith
        (hash (AddWeightedNode exactArith New "a" (-2)) (composite "a" "k")))) =
        float64.fin x ∧ 0 < x) ∧
      ∃ s, computeWeightedScore exactArith (AddWeightedNode exactArith New "a" (-2)) "a" "k" =
          .ok s ∧
        (s.gt (float64.fin 0) = true ↔ 0 < (-2 : Int)) ∧ ((-2 : Int) = 0 → s.isZero = true) ∧
        ((-2 : Int) < 0 → (float64.fin 0).gt s = true)) ∧
    ((exactArith.neg (exactArith.Log (Rendezvous.normalize exactArith
        (hash (AddWeightedNode exactArith New "a" (-2)) (composite "a" "k"))))).isZero = true ↔
      hash (AddWeightedNode exactArith New "a" (-2)) (composite "a" "k") = 2 ^ 32 - 1) :=
  score_sign exactArith exactArith_Faithful (AddWeightedNode exactArith New "a" (-2)) "a" "k"
    (-2) (by decide!) (by decide)

/-- C13: with the FNV-1a hash of `New` and under the properties of double precision, on the
registry `{s1.test.com: 1, s2.test.com: 1}` the key `request` resolves to `s2.test.com`,
whatever the iteration order. -/
theorem Resolve_two_nodes_request (fl : Float64Arith) (hf : fl.Faithful) (order : List String)
    (horder : IterOrder (AddNode fl (AddNode fl New "s1.test.com") "s2.test.com") order) :
    Resolve fl (AddNode fl (AddNode fl New "s1.test.com") "s2.test.com") order "request" =
      .ok "s2.test.com" := by
  have he := eps_pos
  have h1 : hash (AddNode fl (AddNode fl New "s1.test.com") "s2.test.com")
      (composite "s1.test.com" "request") = 1275736889 := by
    show hash New (composite "s1.test.com" "request") = 1275736889
    decide
  have h2 : hash (AddNode fl (AddNode fl New "s1.test.com") "s2.test.com")
      (composite "s2.test.com" "request") = 4199093574 := by
    show hash New (composite "s2.test.com" "request") = 4199093574
    decide
  have hl1 : (AddNode fl (AddNode fl New "s1.test.com") "s2.test.com").nodes.lookup
      "s1.test.com" = some (fl.ofInt 1) := by
    simp [AddNode, AddWeightedNode, Finmap.lookup_insert_of_ne, Finmap.lookup_insert]
  have hl2 : (AddNode fl (AddNode fl New "s1.test.com") "s2.test.com").nodes.lookup
      "s2.test.com" = some (fl.ofInt 1) := by
    simp [AddNode, AddWeightedNode, Finmap.lookup_insert]
  obtain ⟨s1, hs1, _, hs1hi⟩ := score_bounds fl hf _ "s1.test.com" "request" 1 hl1
    (by norm_num) (by norm_num) (by rw [h1]; norm_num) (1275736890 / 2 ^ 32)
    (by rw [h1]; norm_num)
  obtain ⟨s2, hs2, hs2lo, _⟩ := score_bounds fl hf _ "s2.test.com" "request" 1 hl2
    (by norm_num) (by norm_num) (by rw [h2]; norm_num) (4199093575 / 2 ^ 32)
    (by rw [h2]; norm_num)
  have hb1 : s1 ≤ 3 / 2 := le_trans hs1hi (by norm_num [eps])
  have hb2 : 40 ≤ s2 := le_trans (by norm_num [eps]) hs2lo
  refine Resolve_eq_of_strict_max fl _ order "request" "s2.test.com" (float64.fin s2) horder hs2
    ?_ ?_
  · have : (0 : ℚ) < s2 := by linarith
    simpa [float64.gt, float64.toExt] using this
  · intro a ha hne s hs
    have ha' : a = "s2.test.com" ∨ a = "s1.test.com" := by
      simpa [AddNode, AddWeightedNode, New, Finmap.mem_insert, Finmap.not_mem_empty] using ha
    rcases ha' with rfl | rfl
    · exact absurd rfl hne
    · rw [hs1] at hs
      cases hs
      have : s1 < s2 := by linarith
      simpa [float64.gt, float64.toExt] using this

/-- C13 (witness): the reference arithmetic and the order that visits `s1.test.com` first. -/
theorem Resolve_two_nodes_request_witness :
    Resolve exactArith (AddNode exactArith (AddNode exactArith New "s1.test.com") "s2.test.com")
      ["s1.test.com", "s2.test.com"] "request" = .ok "s2.test.com" :=
  Resolve_two_nodes_request exactArith exactArith_Faithful ["s1.test.com", "s2.test.com"]
    (by decide)

/-- C14: with the FNV-1a hash of `New` and under the properties of double precision, on the
registry `{s1.test.com: 10, s2.test.com: 2, s3.test.com: 3}` the score of `s2.test.com` for the
key `request` is above the scores of the two other nodes, and the key resolves to
`s2.test.com`, whatever the iteration order. -/
theorem Resolve_three_weighted_nodes_request (fl : Float64Arith) (hf : fl.Faithful)
    (order : List String)
    (horder : IterOrder (AddWeightedNode fl (AddWeightedNode fl (AddWeightedNode fl New
      "s1.test.com" 10) "s2.test.com" 2) "s3.test.com" 3) order) :
    (∃ s1 s2 s3,
      computeWeightedScore fl (AddWeightedNode fl (AddWeightedNode fl (AddWeightedNode fl New
        "s1.test.com" 10) "s2.test.com" 2) "s3.test.com" 3) "s1.test.com" "request" = .ok s1 ∧
      computeWeightedScore fl (AddWeightedNode fl (AddWeightedNode fl (AddWeightedNode fl New
        "s1.test.com" 10) "s2.test.com" 2) "s3.test.com" 3) "s2.test.com" "request" = .ok s2 ∧
      computeWeightedScore fl (AddWeightedNode fl (AddWeightedNode fl (AddWeightedNode fl New
        "s1.test.com" 10) "s2.test.com" 2) "s3.test.com" 3) "s3.test.com" "request" = .ok s3 ∧
      s2.gt s1 = true ∧ s2.gt s3 = true) ∧
    Resolve fl (AddWeightedNode fl (AddWeightedNode fl (AddWeightedNode fl New
      "s1.test.com" 10) "s2.test.com" 2) "s3.test.com" 3) order "request" =
      .ok "s2.test.com" := by
  have he := eps_pos
  have h1 : hash (AddWeightedNode fl (AddWeightedNode fl (AddWeightedNode fl New
      "s1.test.com" 10) "s2.test.com" 2) "s3.test.com" 3)
      (composite "s1.test.com" "request") = 1275736889 := by
    show hash New (composite "s1.test.com" "request") = 1275736889
    decide
  have h2 : hash (AddWeightedNode fl (AddWeightedNode fl (AddWeightedNode fl New
      "s1.test.com" 10) "s2.test.com" 2) "s3.test.com" 3)
      (composite "s2.test.com" "request") = 4199093574 := by
    show hash New (composite "s2.test.com" "request") = 4199093574
    decide
  have h3 : hash (AddWeightedNode fl (AddWeightedNode fl (AddWeightedNode fl New
      "s1.test.com" 10) "s2.test.com" 2) "s3.test.com" 3)
      (composite "s3.test.com" "request") = 2327755087 := by
    show hash New (composite "s3.test.com" "request") = 2327755087
    decide
  have hl1 : (AddWeightedNode fl (AddWeightedNode fl (AddWeightedNode fl New
      "s1.test.com" 10) "s2.test.com" 2) "s3.test.com" 3).nodes.lookup "s1.test.com" =
      some (fl.ofInt 10) := by
    simp [AddWeightedNode, Finmap.lookup_insert_of_ne, Finmap.lookup_insert]
  have hl2 : (AddWeightedNode fl (AddWeightedNode fl (AddWeightedNode fl New
      "s1.test.com" 10) "s2.test.com" 2) "s3.test.com" 3).nodes.lookup "s2.test.com" =
      some (fl.ofInt 2) := by
    simp [AddWeightedNode, Finmap.lookup_insert_of_ne, Finmap.lookup_insert]
  have hl3 : (AddWeightedNode fl (AddWeightedNode fl (AddWeightedNode fl New
      "s1.test.com" 10) "s2.test.com" 2) "s3.test.com" 3).nodes.lookup "s3.test.com" =
      some (fl.ofInt 3) := by
    simp [AddWeightedNode, Finmap.lookup_insert]
  obtain ⟨s1, hs1, _, hs1hi⟩ := score_bounds fl hf _ "s1.test.com" "request" 10 hl1
    (by norm_num) (by norm_num) (by rw [h1]; norm_num) (1275736890 / 2 ^ 32)
    (by rw [h1]; norm_num)
  obtain ⟨s2, hs2, hs2lo, _⟩ := score_bounds fl hf _ "s2.test.com" "request" 2 hl2
    (by norm_num) (by norm_num) (by rw [h2]; norm_num) (4199093575 / 2 ^ 32)
    (by rw [h2]; norm_num)
  obtain ⟨s3, hs3, _, hs3hi⟩ := score_bounds fl hf _ "s3.test.com" "request" 3 hl3
    (by norm_num) (by norm_num) (by rw [h3]; norm_num) (2327755088 / 2 ^ 32)
    (by rw [h3]; norm_num)
  have hb1 : s1 ≤ 15 := le_trans hs1hi (by norm_num [eps])
  have hb2 : 80 ≤ s2 := le_trans (by norm_num [eps]) hs2lo
  have hb3 : s3 ≤ 7 := le_trans hs3hi (by norm_num [eps])
  have hg1 : (float64.fin s2).gt (float64.fin s1) = true := by
    have : s1 < s2 := by linarith
    simpa [float64.gt, float64.toExt] using this
  have hg3 : (float64.fin s2).gt (float64.fin s3) = true := by
    have : s3 < s2 := by linarith
    simpa [float64.gt, float64.toExt] using this
  refine ⟨⟨_, _, _, hs1, hs2, hs3, hg1, hg3⟩, ?_⟩
  refine Resolve_eq_of_strict_max fl _ order "request" "s2.test.com" (float64.fin s2) horder hs2
    ?_ ?_
  · have : (0 : ℚ) < s2 := by linarith
    simpa [float64.gt, float64.toExt] using this
  · intro a ha hne s hs
    have ha' : a = "s3.test.com" ∨ a = "s2.test.com" ∨ a = "s1.test.com" := by
      simpa [AddWeightedNode, New, Finmap.mem_insert, Finmap.not_mem_empty] using ha
    rcases ha' with rfl | rfl | rfl
    · rw [hs3] at hs
      cases hs
      exact hg3
    · exact absurd rfl hne
    · rw [hs1] at hs
      cases hs
      exact hg1

/-- C14 (witness): the reference arithmetic and the order in which the test adds the nodes. -/
theorem Resolve_three_weighted_nodes_request_witness :
    Resolve exactArith (AddWeightedNode exactArith (AddWeightedNode exactArith
      (AddWeightedNode exactArith New "s1.test.com" 10) "s2.test.com" 2) "s3.test.com" 3)
      ["s1.test.com", "s2.test.com", "s3.test.com"] "request" = .ok "s2.test.com" :=
  (Resolve_three_weighted_nodes_request exactArith exactArith_Faithful
    ["s1.test.com", "s2.test.com", "s3.test.com"] (by decide)).2

/-- A run in which nothing writes to the registry is the sequential `Resolve`. -/
theorem Resolve.concurrent_of_no_write (fl : Float64Arith) (r : rendezvous)
    (order : List String) (k : String) :
    Resolve.concurrent fl r (order.map (fun a => (a, r))) k = Resolve fl r order k := by
  have hloop : ∀ (l : List String) (node : String) (maxScore : float64),
      Resolve.concurrentLoop fl k (l.map (fun a => (a, r))) node maxScore =
        Resolve.loop fl r k l node maxScore := by
    intro l
    induction l with
    | nil => intro node maxScore; rfl
    | cons a rest ih =>
      intro node maxScore
      simp only [List.map_cons, Resolve.concurrentLoop, Resolve.loop]
      cases computeWeightedScore fl r a k with
      | error e => rfl
      | ok s =>
        simp only []
        split
        · exact ih a s
        · exact ih node maxScore
  unfold Resolve.concurrent Resolve
  rw [hloop]

/-- C16 (the code in a concurrent run): `Resolve` holds no lock between its reads.  It finds
`{a: 1}` at the emptiness test and visits `a`; `RemoveNode(a)` runs in another goroutine before
`computeWeightedScore(a)` takes the read lock, and the call panics with
`a is not a valid node.`: the emptiness test and the score read two different registries.  When
the removal runs before the loop starts, `Resolve` returns the empty string. -/
theorem Resolve_concurrent_reads_two_registries :
    Len (AddNode exactArith New "a") ≠ 0 ∧
    Resolve.concurrent exactArith (AddNode exactArith New "a")
      [("a", RemoveNode (AddNode exactArith New "a") ["a"] "a")] "k" =
      .error (.notValidNode "a") ∧
    Resolve.concurrent exactArith (AddNode exactArith New "a") [] "k" = .ok "" := by
  decide!

end Rendezvous
